import Mathlib

/-!
# Verification of `sgvc` (single-file version control)

A shallow embedding of `sgvc.go` — a single-file version-tracking utility.
Go strings are byte sequences, so we model them as `List Nat` (`Str`), and
file contents likewise (`Bytes`).  The durable state of the program is the
index file (an append-only sequence of commit records) together with the
content store (one file per committed version); each CLI invocation loads
the index (sorting it by path ascending / version descending, as
`loadCommits` does), performs one operation, and exits.

External library calls (`crc32.ChecksumIEEE`, `sha1`, `strconv`,
`strings.Split`) are modelled concretely below; `time` formatting/parsing
and `strconv.Quote` are irrelevant to every property proved here and are
abstracted as parameters where they occur.
-/

namespace Sgvc

/-- A Go string: a sequence of bytes. -/
abbrev Str := List Nat

/-- Raw file contents: a sequence of bytes. -/
abbrev Bytes := List Nat

/-! ## External library functions used by the source -/

/-- One bit-iteration of the reflected CRC-32 (IEEE) algorithm,
polynomial `0xEDB88320`, as used by Go's `crc32.ChecksumIEEE`. -/
def crc32Bit (c : Nat) : Nat :=
  if c % 2 = 1 then (c / 2) ^^^ 0xEDB88320 else c / 2

/-- Fold one input byte into the CRC-32 state (8 bit-iterations). -/
def crc32Byte (c b : Nat) : Nat :=
  crc32Bit (crc32Bit (crc32Bit (crc32Bit (crc32Bit (crc32Bit (crc32Bit (crc32Bit (c ^^^ b))))))))

/-- Go's `crc32.ChecksumIEEE`: initial state `0xFFFFFFFF`, final xor
`0xFFFFFFFF`. -/
def crc32 (data : Bytes) : Nat :=
  (data.foldl crc32Byte 0xFFFFFFFF) ^^^ 0xFFFFFFFF

/-- SHA-1 digest of the empty message — `sha1.New().Sum(b)` appends the
digest of what was written so far (nothing) to `b`, so this constant is the
only piece of SHA-1 the program ever uses. -/
def sha1EmptyDigest : Bytes :=
  [0xda, 0x39, 0xa3, 0xee, 0x5e, 0x6b, 0x4b, 0x0d, 0x32, 0x55,
   0xbf, 0xef, 0x95, 0x60, 0x18, 0x90, 0xaf, 0xd8, 0x07, 0x09]

/-- Lower-case hex digit (as a byte) for a nibble value. -/
def hexDigitByte (n : Nat) : Nat :=
  if n < 10 then 48 + n else 87 + n

/-- `fmt.Sprintf("%x", bs)`: two lower-case hex digits per byte. -/
def hexBytes (bs : Bytes) : Str :=
  bs.flatMap (fun b => [hexDigitByte (b / 16), hexDigitByte (b % 16)])

/-- Decimal digit expansion with explicit fuel (structural recursion, so
that concrete store file names evaluate by reduction); `fuel ≥ n` makes
the fallback unreachable. -/
def decDigitsAux : Nat → Nat → Str
  | 0, n => [48 + n % 10]
  | fuel + 1, n => if n < 10 then [48 + n] else decDigitsAux fuel (n / 10) ++ [48 + n % 10]

/-- The decimal digits (as bytes) of a natural number, most significant
first; `decDigits 0 = "0"`. -/
def decDigits (n : Nat) : Str := decDigitsAux n n

/-- Left-pad a digit string with `'0'` to width `w`. -/
def leftPad0 (w : Nat) (s : Str) : Str :=
  List.replicate (w - s.length) 48 ++ s

/-- Go's `fmt.Sprintf("%0*d", w, n)` for an integer `n`: the sign (if
negative) followed by the zero-padded decimal magnitude, total width `w`. -/
def goPadInt (w : Nat) (n : Int) : Str :=
  if n < 0 then 45 :: leftPad0 (w - 1) (decDigits n.natAbs)
  else leftPad0 w (decDigits n.natAbs)

/-! ## The data model (`commit` struct) -/

/-- `maxVersionLength` from the source: width used with `%0*d`. -/
def maxVersionLength : Nat := 4

/-- The `commit` struct of `sgvc.go` (the `descs` tree field is not part of
the record; the tree is reconstructed separately by `treeOfCommits`).
`when` is an abstract instant (`time.Time` values are only carried
through, never inspected, by the operations verified here). -/
structure Commit where
  path : Str
  when : Nat
  version : Int
  basedOn : Int
  pathSig : Str
  dataCrc : Nat
  changes : Str
  deriving Repr, DecidableEq

/-- `pathSig := fmt.Sprintf("%x", sha1.New().Sum([]byte(path)))` — note
that Go's `Hash.Sum(b)` APPENDS the digest to `b`, so the signature is the
hex encoding of the path bytes followed by the SHA-1 digest of the empty
message. -/
def pathSigOf (path : Str) : Str :=
  hexBytes (path ++ sha1EmptyDigest)

/-- `index.filePath`: the content-store file name for a commit,
`fmt.Sprintf("%s-%0*d", cmt.pathSig, maxVersionLength, cmt.version)`
(the constant work directory prefix is common to every entry and omitted). -/
def fileName (c : Commit) : Str :=
  c.pathSig ++ 45 :: goPadInt maxVersionLength c.version

/-! ## Loading: the sort applied by `loadCommits`

`strings.Compare` is byte-wise lexicographic comparison; `loadCommits`
sorts the in-memory commits ascending by path and descending by version. -/

/-- Byte-wise lexicographic strict order on Go strings
(`strings.Compare(a, b) < 0`). -/
def strLt : Str → Str → Bool
  | [], [] => false
  | [], _ :: _ => true
  | _ :: _, [] => false
  | a :: as, b :: bs => if a < b then true else if b < a then false else strLt as bs

/-- The comparator of `loadCommits` as a non-strict order: `a` may come
before `b` iff `a.path < b.path`, or the paths are equal and
`b.version ≤ a.version` (version descending). -/
def leC (a b : Commit) : Bool :=
  strLt a.path b.path || (a.path == b.path && decide (b.version ≤ a.version))

/-- Ordered insertion with respect to `leC`. -/
def insertC (x : Commit) : List Commit → List Commit
  | [] => [x]
  | y :: ys => if leC x y then x :: y :: ys else y :: insertC x ys

/-- The sort performed at load time (`slices.SortFunc` in `loadCommits`):
path ascending, version descending.  Any correct sort for this comparator
agrees with this one except on records tied on both path and version. -/
def sortCommits : List Commit → List Commit
  | [] => []
  | x :: xs => insertC x (sortCommits xs)

/-! ## The durable state and the store -/

/-- The content store: an association list from file name to file bytes;
`os.WriteFile` overwrites, `os.ReadFile` looks up. -/
abbrev Store := List (Str × Bytes)

/-- `os.ReadFile` on the store. -/
def storeRead (s : Store) (k : Str) : Option Bytes :=
  match s.find? (fun e => e.1 == k) with
  | some e => some e.2
  | none => none

/-- `os.WriteFile` on the store: create or overwrite the file `k`. -/
def storeWrite (s : Store) (k : Str) (v : Bytes) : Store :=
  (k, v) :: s.filter (fun e => !(e.1 == k))

/-- The durable state: the index file (commit records in append order) and
the content store. -/
structure IndexState where
  log : List Commit
  store : Store
  deriving Repr, DecidableEq

/-- The initial state: empty index file, empty store. -/
def initState : IndexState := ⟨[], []⟩

/-! ## Queries (`currVersion`, `filter`, `extract`) -/

/-- `index.currVersion`: the latest version of a file — fold over the
in-memory commits keeping the largest version whose path matches. -/
def currVersion (commits : List Commit) (path : Str) : Int :=
  commits.foldl (fun v c => if c.path = path ∧ v < c.version then c.version else v) 0

/-- `index.filter`: the commits for one file, or all commits when `path`
is the empty string. -/
def filterCommits (commits : List Commit) (path : Str) : List Commit :=
  if path = [] then commits
  else commits.filter (fun c => c.path = path)

/-- Result of `index.extract`. -/
inductive ExtractResult where
  | found (data : Bytes)
  | notFound
  | readError
  | corrupted (expected got : Nat)
  deriving Repr, DecidableEq

/-- `index.extract` in a fresh invocation: load (sort) the index, find the
first record matching `(path, version)`, read its store file, verify the
CRC-32. -/
def extractOp (st : IndexState) (path : Str) (version : Int) : ExtractResult :=
  let commits := sortCommits st.log
  match commits.find? (fun c => c.path == path && c.version == version) with
  | none => .notFound
  | some cmt =>
    match storeRead st.store (fileName cmt) with
    | none => .readError
    | some data =>
      if crc32 data ≠ cmt.dataCrc then .corrupted cmt.dataCrc (crc32 data)
      else .found data

/-- `index.filter` in a fresh invocation: load (sort) the index, then
filter. -/
def filterOp (st : IndexState) (path : Str) : List Commit :=
  filterCommits (sortCommits st.log) path

/-! ## Commit -/

/-- Result of `index.commit`. -/
inductive CommitResult where
  | ok
  | readError
  | invalidBase (b : Int)
  | writeContentError
  | appendError
  deriving Repr, DecidableEq

/-- Durable side effects performed by a commit, in order. -/
inductive IOEvent where
  | writeContent (fname : Str) (data : Bytes)
  | appendLog (c : Commit)
  deriving Repr, DecidableEq

/-- Injected outcomes of the two durable writes of `commit`: the
`os.WriteFile` of the content, and the open-append of the index file
(open failure and write failure both leave the index unchanged and are
collapsed into one flag). -/
structure IOOracle where
  contentWriteOk : Bool
  appendOk : Bool
  deriving Repr, DecidableEq

/-- What a call to `index.commit` returns and leaves behind. -/
structure CommitOutcome where
  result : CommitResult
  state : IndexState
  events : List IOEvent
  deriving Repr, DecidableEq

/-- `index.commit` in a fresh invocation, at the record level,
parameterized by `q` — Go's `strconv.Quote`, an external library function
never inspected by any property below — by the result of
`os.ReadFile(path)` on the working file (`readResult`), by `time.Now()`
(`now`), and by the IO oracle.  Mirrors the source: read the working
file; validate `basedOn` against `currVersion`; build the record; write
the content file; then append to the index.  NOTE: the source appends
`cmt.serialize()` — a tab-separated LINE — where this model appends the
parsed record; the two agree only while every line stays well-formed
(`commitFile`/`FileRel`/`commitFile_sim` below model the byte-level index
file faithfully, and a tab byte in a path makes them diverge: the
byte-level commit succeeds but poisons every later load). -/
def commitOp (q : Str → Str) (st : IndexState) (path : Str) (basedOn : Int)
    (changes : Str) (readResult : Option Bytes) (now : Nat)
    (oracle : IOOracle) : CommitOutcome :=
  match readResult with
  | none => ⟨.readError, st, []⟩
  | some data =>
    let commits := sortCommits st.log
    let curr := currVersion commits path
    if basedOn ≠ 0 ∧ basedOn > curr then ⟨.invalidBase basedOn, st, []⟩
    else
      let cmt : Commit :=
        { path := path, when := now, version := curr + 1, basedOn := basedOn,
          pathSig := pathSigOf path, dataCrc := crc32 data, changes := q changes }
      let fpath := fileName cmt
      if oracle.contentWriteOk = false then ⟨.writeContentError, st, []⟩
      else
        let st₁ : IndexState := ⟨st.log, storeWrite st.store fpath data⟩
        if oracle.appendOk = false then
          ⟨.appendError, st₁, [.writeContent fpath data]⟩
        else
          ⟨.ok, ⟨st₁.log ++ [cmt], st₁.store⟩,
           [.writeContent fpath data, .appendLog cmt]⟩

/-- The arguments of one `commit` invocation, with its injected
environment (working-file contents, clock, IO outcomes). -/
structure CommitCall where
  path : Str
  basedOn : Int
  changes : Str
  readResult : Option Bytes
  now : Nat
  oracle : IOOracle
  deriving Repr, DecidableEq

/-- Run a sequence of `commit` invocations from a given durable state. -/
def runFrom (q : Str → Str) (st : IndexState) (calls : List CommitCall) :
    IndexState :=
  calls.foldl
    (fun s c => (commitOp q s c.path c.basedOn c.changes c.readResult c.now c.oracle).state)
    st

/-- Run a sequence of `commit` invocations from the initial (empty)
state. -/
def runCommits (q : Str → Str) (calls : List CommitCall) : IndexState :=
  runFrom q initState calls

/-! ## Serialization: `deserializeCommit` and the load loop

These model the line format of the index file (claim-relevant part of
`loadCommits`); the record-level pipeline above works below this layer. -/

/-- `strings.Split(s, "\t")` on a byte string: split on byte 9, keeping
empty fields (`splitOn` has exactly Go's semantics for a 1-byte
separator). -/
def splitTabs (s : Str) : List Str := s.splitOn 9

/-- Is `b` an ASCII decimal digit? -/
def isDigit (b : Nat) : Bool := 48 ≤ b && b ≤ 57

/-- Numeric value of a digit string (most significant first). -/
def digitsVal (s : Str) : Nat :=
  s.foldl (fun acc b => acc * 10 + (b - 48)) 0

/-- Go's `strconv.Atoi`: optional sign, then one or more decimal digits,
64-bit range check. -/
def goAtoi (s : Str) : Option Int :=
  let core : Str → Bool := fun t => t ≠ [] && t.all isDigit
  match s with
  | 43 :: t => if core t && digitsVal t ≤ 2 ^ 63 - 1 then some (digitsVal t) else none
  | 45 :: t => if core t && digitsVal t ≤ 2 ^ 63 then some (-(digitsVal t : Int)) else none
  | t => if core t && digitsVal t ≤ 2 ^ 63 - 1 then some (digitsVal t) else none

/-- Go's `strconv.ParseUint(s, 10, 32)`: decimal digits only, no sign,
value below `2^32`. -/
def goParseUint32 (s : Str) : Option Nat :=
  if s ≠ [] && s.all isDigit && digitsVal s < 2 ^ 32 then some (digitsVal s) else none

/-- `deserializeCommit`, parameterized by `parseTime` — Go's
`time.Parse(time.RFC3339, ·)`, an external library function whose
success/failure is all that matters here.  Exactly 7 tab-separated
fields; the timestamp, version, basedOn and checksum fields must parse. -/
def deserializeCommit (parseTime : Str → Option Nat) (s : Str) : Option Commit :=
  let parts := splitTabs s
  if parts.length ≠ 7 then none
  else
    match parseTime (parts.getD 1 []) with
    | none => none
    | some cwhen =>
      match goAtoi (parts.getD 2 []) with
      | none => none
      | some cversion =>
        match goAtoi (parts.getD 3 []) with
        | none => none
        | some cbasedOn =>
          match goParseUint32 (parts.getD 5 []) with
          | none => none
          | some dataCrc =>
            some { path := parts.getD 0 [], when := cwhen, version := cversion,
                   basedOn := cbasedOn, pathSig := parts.getD 4 [],
                   dataCrc := dataCrc, changes := parts.getD 6 [] }

/-- The load loop of `loadCommits` over the lines of the index file:
`log.Fatalf` on the first malformed line aborts the whole process, which
the model renders as `none` — no partial list of commits survives.  On
success the commits are sorted as in the source. -/
def loadLines (parseTime : Str → Option Nat) (lines : List Str) :
    Option (List Commit) :=
  match lines with
  | [] => some []
  | l :: ls =>
    match deserializeCommit parseTime l with
    | none => none
    | some c =>
      match loadLines parseTime ls with
      | none => none
      | some cs => some (c :: cs)

/-- `loadCommits` on the lines of the index file: parse every line (fatal
on the first failure), then sort. -/
def loadCommitsOp (parseTime : Str → Option Nat) (lines : List Str) :
    Option (List Commit) :=
  (loadLines parseTime lines).map sortCommits

/-! ## Tree reconstruction (`treeOfCommits`)

The Go code links records by pointer and mutates `descs` in place; the
model addresses the filtered records by list index: the result is the
index list of roots (children of the dummy node, in attachment order) and,
for every index, the index list of its children (in attachment order).
The lookup map `m` keyed by `(path, version)` retains the LAST record
inserted for a key, hence `mLookup` scans from the right.  When a nonzero
`basedOn` misses the map, the Go code appends through a nil `*commit` and
panics; the model returns `none` there. -/

/-- Index of the last record in `commits` with the given path and
version — the surviving entry of the Go map `m`. -/
def mLookup (commits : List Commit) (p : Str) (v : Int) : Option Nat :=
  (commits.enum.reverse.find? (fun e => e.2.path == p && e.2.version == v)).map (·.1)

/-- The attachment loop of `treeOfCommits`: walk the records in order
(`i` is the index of the head of `rest` within `commits`), appending
roots to the dummy node and children to their parent's list. -/
def treeAux (commits : List Commit) :
    Nat → List Commit → List Nat × List (List Nat) → Option (List Nat × List (List Nat))
  | _, [], acc => some acc
  | i, c :: rest, (roots, descs) =>
    if c.basedOn > 0 then
      match mLookup commits c.path c.basedOn with
      | none => none
      | some j => treeAux commits (i + 1) rest (roots, descs.set j (descs.getD j [] ++ [i]))
    else
      treeAux commits (i + 1) rest (roots ++ [i], descs)

/-- `treeOfCommits` on an already-filtered record list. -/
def treeBuild (commits : List Commit) : Option (List Nat × List (List Nat)) :=
  treeAux commits 0 commits ([], List.replicate commits.length [])

/-- `index.treeOfCommits` in a fresh invocation: load (sort), filter,
build the forest. -/
def treeOfCommitsOp (st : IndexState) (path : Str) :
    Option (List Nat × List (List Nat)) :=
  treeBuild (filterOp st path)

/-! ## Lemmas: the load-time sort is a permutation, sorted by `leC` -/

theorem insertC_perm (x : Commit) (l : List Commit) :
    List.Perm (insertC x l) (x :: l) := by
  induction l with
  | nil => exact List.Perm.refl _
  | cons y ys ih =>
    simp only [insertC]
    split
    · exact List.Perm.refl _
    · exact (List.Perm.cons y ih).trans (List.Perm.swap x y ys)

theorem sortCommits_perm (l : List Commit) : List.Perm (sortCommits l) l := by
  induction l with
  | nil => exact List.Perm.refl _
  | cons x xs ih =>
    exact (insertC_perm x (sortCommits xs)).trans (List.Perm.cons x ih)

theorem mem_sortCommits {c : Commit} {l : List Commit} :
    c ∈ sortCommits l ↔ c ∈ l :=
  (sortCommits_perm l).mem_iff

theorem strLt_cons {x y : Nat} {xs ys : Str} :
    strLt (x :: xs) (y :: ys) = true ↔ x < y ∨ (x = y ∧ strLt xs ys = true) := by
  simp only [strLt]
  by_cases h₁ : x < y
  · simp [h₁]
  · by_cases h₂ : y < x
    · simp only [if_neg h₁, if_pos h₂]
      constructor
      · intro h; exact absurd h (by simp)
      · intro h; rcases h with h | ⟨h, _⟩ <;> omega
    · have hx : x = y := by omega
      subst hx
      simp [h₁]

theorem strLt_irrefl (s : Str) : strLt s s = false := by
  induction s with
  | nil => rfl
  | cons a as ih => simp [strLt, ih]

theorem strLt_trans {a b c : Str} (h₁ : strLt a b = true) (h₂ : strLt b c = true) :
    strLt a c = true := by
  induction a generalizing b c with
  | nil =>
    cases b with
    | nil => exact h₂
    | cons y ys =>
      cases c with
      | nil => simp [strLt] at h₂
      | cons z zs => rfl
  | cons x xs ih =>
    cases b with
    | nil => simp [strLt] at h₁
    | cons y ys =>
      cases c with
      | nil => simp [strLt] at h₂
      | cons z zs =>
        rw [strLt_cons] at h₁ h₂ ⊢
        rcases h₁ with h₁ | ⟨h₁, h₁'⟩
        · rcases h₂ with h₂ | ⟨h₂, _⟩
          · exact Or.inl (by omega)
          · exact Or.inl (by omega)
        · rcases h₂ with h₂ | ⟨h₂, h₂'⟩
          · exact Or.inl (by omega)
          · exact Or.inr ⟨by omega, ih h₁' h₂'⟩

theorem strLt_connex {a b : Str} (h₁ : strLt a b = false) (h₂ : strLt b a = false) :
    a = b := by
  induction a generalizing b with
  | nil =>
    cases b with
    | nil => rfl
    | cons y ys => simp [strLt] at h₁
  | cons x xs ih =>
    cases b with
    | nil => simp [strLt] at h₂
    | cons y ys =>
      have h₁' : ¬ (x < y ∨ (x = y ∧ strLt xs ys = true)) := by
        rw [← strLt_cons]; simp [h₁]
      have h₂' : ¬ (y < x ∨ (y = x ∧ strLt ys xs = true)) := by
        rw [← strLt_cons]; simp [h₂]
      push_neg at h₁' h₂'
      have hx : x = y := by omega
      subst hx
      rw [ih (by simpa using h₁'.2 rfl) (by simpa using h₂'.2 rfl)]

theorem leC_total (a b : Commit) : leC a b = true ∨ leC b a = true := by
  unfold leC
  by_cases h₁ : strLt a.path b.path = true
  · left; simp [h₁]
  · by_cases h₂ : strLt b.path a.path = true
    · right; simp [h₂]
    · have hp : a.path = b.path :=
        strLt_connex (Bool.not_eq_true _ ▸ h₁) (Bool.not_eq_true _ ▸ h₂)
      rcases Int.le_total a.version b.version with hv | hv
      · right; simp [hp, hv]
      · left; simp [hp, hv]

theorem leC_trans {a b c : Commit} (h₁ : leC a b = true) (h₂ : leC b c = true) :
    leC a c = true := by
  unfold leC at h₁ h₂ ⊢
  simp only [Bool.or_eq_true, Bool.and_eq_true, beq_iff_eq, decide_eq_true_eq] at h₁ h₂ ⊢
  rcases h₁ with h₁ | ⟨h₁, h₁v⟩
  · rcases h₂ with h₂ | ⟨h₂, _⟩
    · exact Or.inl (strLt_trans h₁ h₂)
    · exact Or.inl (h₂ ▸ h₁)
  · rcases h₂ with h₂ | ⟨h₂, h₂v⟩
    · exact Or.inl (h₁ ▸ h₂)
    · exact Or.inr ⟨h₁.trans h₂, le_trans h₂v h₁v⟩

theorem pairwise_insertC {x : Commit} {l : List Commit}
    (h : l.Pairwise (fun a b => leC a b = true)) :
    (insertC x l).Pairwise (fun a b => leC a b = true) := by
  induction l with
  | nil => simp [insertC]
  | cons y ys ih =>
    simp only [insertC]
    split
    · rename_i hxy
      refine List.Pairwise.cons ?_ h
      intro z hz
      rcases hz with _ | hz
      · exact hxy
      · exact leC_trans hxy (List.rel_of_pairwise_cons h (by assumption))
    · rename_i hxy
      have hyx : leC y x = true := by
        rcases leC_total x y with h' | h'
        · exact absurd h' hxy
        · exact h'
      rcases h with _ | ⟨hy, hys⟩
      refine List.Pairwise.cons ?_ (ih hys)
      intro z hz
      have := (insertC_perm x _).mem_iff.mp hz
      rcases List.mem_cons.mp this with rfl | hz'
      · exact hyx
      · exact hy z hz'

theorem sortCommits_pairwise (l : List Commit) :
    (sortCommits l).Pairwise (fun a b => leC a b = true) := by
  induction l with
  | nil => exact List.Pairwise.nil
  | cons x xs ih => exact pairwise_insertC ih

/-! ## Lemmas: `currVersion` -/

/-- The step function of the `currVersion` fold. -/
def cvStep (p : Str) (v : Int) (c : Commit) : Int :=
  if c.path = p ∧ v < c.version then c.version else v

theorem currVersion_eq_foldl (l : List Commit) (p : Str) :
    currVersion l p = l.foldl (cvStep p) 0 := rfl

theorem cvStep_eq_max (p : Str) (v : Int) (c : Commit) :
    cvStep p v c = if c.path = p then max v c.version else v := by
  unfold cvStep
  by_cases hp : c.path = p
  · rw [if_pos hp]
    by_cases hv : v < c.version
    · rw [if_pos ⟨hp, hv⟩, max_eq_right (le_of_lt hv)]
    · rw [if_neg (fun h => hv h.2), max_eq_left (by omega)]
  · rw [if_neg hp, if_neg (fun h => hp h.1)]

theorem cvStep_comm (p : Str) (v : Int) (a b : Commit) :
    cvStep p (cvStep p v a) b = cvStep p (cvStep p v b) a := by
  simp only [cvStep_eq_max]
  by_cases ha : a.path = p
  · by_cases hb : b.path = p
    · simp only [if_pos ha, if_pos hb]
      omega
    · simp [ha, hb]
  · by_cases hb : b.path = p
    · simp [ha, hb]
    · simp [ha, hb]

theorem foldl_cvStep_perm {l₁ l₂ : List Commit} (h : List.Perm l₁ l₂) (p : Str) :
    ∀ v, l₁.foldl (cvStep p) v = l₂.foldl (cvStep p) v := by
  induction h with
  | nil => intro v; rfl
  | cons x _ ih => intro v; simp only [List.foldl_cons]; exact ih _
  | swap x y l => intro v; simp only [List.foldl_cons, cvStep_comm]
  | trans _ _ ih₁ ih₂ => intro v; exact (ih₁ v).trans (ih₂ v)

theorem currVersion_perm {l₁ l₂ : List Commit} (h : List.Perm l₁ l₂) (p : Str) :
    currVersion l₁ p = currVersion l₂ p :=
  foldl_cvStep_perm h p 0

theorem currVersion_sortCommits (l : List Commit) (p : Str) :
    currVersion (sortCommits l) p = currVersion l p :=
  currVersion_perm (sortCommits_perm l) p

theorem foldl_cvStep_le_start (l : List Commit) (p : Str) (v : Int) :
    v ≤ l.foldl (cvStep p) v := by
  induction l generalizing v with
  | nil => exact le_refl v
  | cons c cs ih =>
    refine le_trans ?_ (ih (cvStep p v c))
    simp only [cvStep_eq_max]
    split <;> simp

theorem currVersion_nonneg (l : List Commit) (p : Str) :
    0 ≤ currVersion l p :=
  foldl_cvStep_le_start l p 0

theorem version_le_currVersion {l : List Commit} {c : Commit}
    (hm : c ∈ l) (hp : c.path = p) : c.version ≤ currVersion l p := by
  rw [currVersion_eq_foldl]
  generalize (0 : Int) = v
  induction l generalizing v with
  | nil => cases hm
  | cons d ds ih =>
    rcases List.mem_cons.mp hm with rfl | hm'
    · refine le_trans ?_ (foldl_cvStep_le_start ds p _)
      simp [cvStep_eq_max, hp]
    · exact ih hm' _

/-! ## Lemmas: the per-path version multiset -/

/-- The versions recorded for path `p`, in log order. -/
def versionsOf (log : List Commit) (p : Str) : List Int :=
  (log.filter (fun c => c.path = p)).map (·.version)

/-- `[1, 2, ..., k]` as integers. -/
def intRange1 : Nat → List Int
  | 0 => []
  | k + 1 => intRange1 k ++ [(k + 1 : Int)]

theorem intRange1_succ (k : Nat) :
    intRange1 (k + 1) = intRange1 k ++ [(k + 1 : Int)] := rfl

theorem mem_intRange1 {k : Nat} {v : Int} :
    v ∈ intRange1 k ↔ 1 ≤ v ∧ v ≤ k := by
  induction k with
  | zero =>
    simp only [intRange1, List.not_mem_nil, false_iff]
    omega
  | succ n ih =>
    rw [intRange1_succ, List.mem_append, ih]
    simp only [List.mem_singleton]
    omega

theorem intRange1_length (k : Nat) : (intRange1 k).length = k := by
  induction k with
  | zero => rfl
  | succ n ih =>
    rw [intRange1_succ, List.length_append, ih]
    rfl

theorem intRange1_nodup (k : Nat) : (intRange1 k).Nodup := by
  induction k with
  | zero => exact List.nodup_nil
  | succ n ih =>
    rw [intRange1_succ]
    refine List.Nodup.append ih (List.nodup_singleton _) ?_
    intro v hv hv'
    rw [mem_intRange1] at hv
    rw [List.mem_singleton] at hv'
    omega

theorem foldl_max_intRange1 (k : Nat) :
    (intRange1 k).foldl (fun v x => max v x) 0 = k := by
  induction k with
  | zero => rfl
  | succ n ih =>
    rw [intRange1_succ, List.foldl_append, ih]
    simp only [List.foldl_cons, List.foldl_nil]
    omega

theorem currVersion_eq_foldl_versions (l : List Commit) (p : Str) :
    currVersion l p = (versionsOf l p).foldl (fun v x => max v x) 0 := by
  rw [currVersion_eq_foldl]
  unfold versionsOf
  generalize (0 : Int) = v
  induction l generalizing v with
  | nil => rfl
  | cons c cs ih =>
    rw [List.foldl_cons, cvStep_eq_max, List.filter_cons]
    by_cases hp : c.path = p
    · rw [if_pos hp, if_pos (by simp [hp])]
      rw [List.map_cons, List.foldl_cons]
      exact ih _
    · rw [if_neg hp, if_neg (by simp [hp])]
      exact ih _

/-- When the versions for `p` are exactly `1..k`, `currVersion` is `k`. -/
theorem currVersion_of_versions {l : List Commit} {p : Str} {k : Nat}
    (h : versionsOf l p = intRange1 k) : currVersion l p = k := by
  rw [currVersion_eq_foldl_versions, h, foldl_max_intRange1]

/-! ## Lemmas: store file names are distinct across distinct versions -/

theorem hexDigitByte_ne_45 (n : Nat) : hexDigitByte n ≠ 45 := by
  unfold hexDigitByte
  split <;> omega

theorem hexDigitByte_inj {m n : Nat} (h : hexDigitByte m = hexDigitByte n) :
    m = n := by
  unfold hexDigitByte at h
  split at h <;> split at h <;> omega

theorem hexBytes_ne_45 {bs : Bytes} : ∀ a ∈ hexBytes bs, a ≠ 45 := by
  intro a ha
  unfold hexBytes at ha
  rw [List.mem_flatMap] at ha
  obtain ⟨b, _, hb⟩ := ha
  rw [List.mem_cons, List.mem_singleton] at hb
  rcases hb with rfl | rfl
  · exact hexDigitByte_ne_45 _
  · exact hexDigitByte_ne_45 _

theorem hexBytes_inj {bs₁ bs₂ : Bytes} (h : hexBytes bs₁ = hexBytes bs₂) :
    bs₁ = bs₂ := by
  induction bs₁ generalizing bs₂ with
  | nil =>
    cases bs₂ with
    | nil => rfl
    | cons b bs => simp [hexBytes] at h
  | cons a as ih =>
    cases bs₂ with
    | nil => simp [hexBytes] at h
    | cons b bs =>
      simp only [hexBytes, List.flatMap_cons, List.cons_append, List.nil_append,
        List.cons.injEq] at h
      obtain ⟨h₁, h₂, h₃⟩ := h
      have hd : a / 16 = b / 16 := hexDigitByte_inj h₁
      have hm : a % 16 = b % 16 := hexDigitByte_inj h₂
      have hab : a = b := by omega
      have : as = bs := ih (by simpa [hexBytes] using h₃)
      rw [hab, this]

theorem pathSigOf_inj {p₁ p₂ : Str} (h : pathSigOf p₁ = pathSigOf p₂) :
    p₁ = p₂ := by
  unfold pathSigOf at h
  have := hexBytes_inj h
  exact (List.append_inj' this rfl).1

theorem pathSigOf_ne_45 {p : Str} : ∀ a ∈ pathSigOf p, a ≠ 45 :=
  fun a ha => hexBytes_ne_45 a ha

/-- Evaluating a digit string (`digitsVal`) after appending a digit. -/
theorem digitsVal_append_digit (s : Str) (b : Nat) :
    digitsVal (s ++ [b]) = digitsVal s * 10 + (b - 48) := by
  unfold digitsVal
  rw [List.foldl_append]
  rfl

theorem decDigitsAux_val {fuel n : Nat} (h : n ≤ fuel) :
    digitsVal (decDigitsAux fuel n) = n := by
  induction fuel generalizing n with
  | zero =>
    unfold decDigitsAux digitsVal
    simp only [List.foldl_cons, List.foldl_nil]
    omega
  | succ f ih =>
    unfold decDigitsAux
    split
    · unfold digitsVal
      simp only [List.foldl_cons, List.foldl_nil]
      omega
    · rw [digitsVal_append_digit, ih (by omega)]
      omega

theorem decDigits_val (n : Nat) : digitsVal (decDigits n) = n :=
  decDigitsAux_val (le_refl n)

theorem decDigitsAux_are_digits (fuel n : Nat) :
    ∀ b ∈ decDigitsAux fuel n, 48 ≤ b ∧ b ≤ 57 := by
  induction fuel generalizing n with
  | zero =>
    intro b hb
    unfold decDigitsAux at hb
    rw [List.mem_singleton] at hb
    omega
  | succ f ih =>
    intro b hb
    unfold decDigitsAux at hb
    split at hb
    · rw [List.mem_singleton] at hb
      omega
    · rw [List.mem_append, List.mem_singleton] at hb
      rcases hb with h | h
      · exact ih (n / 10) b h
      · omega

theorem decDigits_are_digits (n : Nat) :
    ∀ b ∈ decDigits n, 48 ≤ b ∧ b ≤ 57 :=
  decDigitsAux_are_digits n n

theorem digitsVal_leftPad0 (w : Nat) (s : Str) :
    digitsVal (leftPad0 w s) = digitsVal s := by
  unfold leftPad0 digitsVal
  rw [List.foldl_append]
  congr 1
  generalize w - s.length = m
  induction m with
  | zero => rfl
  | succ k ihk =>
    rw [List.replicate_succ, List.foldl_cons]
    simpa using ihk

theorem leftPad0_are_digits {w : Nat} {s : Str}
    (h : ∀ b ∈ s, 48 ≤ b ∧ b ≤ 57) :
    ∀ b ∈ leftPad0 w s, 48 ≤ b ∧ b ≤ 57 := by
  intro b hb
  unfold leftPad0 at hb
  rw [List.mem_append] at hb
  rcases hb with hb | hb
  · rw [List.eq_of_mem_replicate hb]
    omega
  · exact h b hb

/-- For a nonnegative version, the padded field contains only decimal
digits (in particular, never byte 45, the separator). -/
theorem goPadInt_nonneg_digits {w : Nat} {n : Int} (hn : 0 ≤ n) :
    ∀ b ∈ goPadInt w n, 48 ≤ b ∧ b ≤ 57 := by
  unfold goPadInt
  rw [if_neg (by omega)]
  exact leftPad0_are_digits (decDigits_are_digits _)

theorem goPadInt_inj_nonneg {w : Nat} {m n : Int}
    (hm : 0 ≤ m) (hn : 0 ≤ n) (h : goPadInt w m = goPadInt w n) : m = n := by
  unfold goPadInt at h
  rw [if_neg (by omega), if_neg (by omega)] at h
  have := congrArg digitsVal h
  rw [digitsVal_leftPad0, digitsVal_leftPad0, decDigits_val, decDigits_val] at this
  omega

/-- A list of the shape `xs ++ 45 :: zs` where `xs` avoids byte 45 splits
uniquely. -/
theorem append_sep_inj {xs ys zs ws : Str}
    (hx : ∀ a ∈ xs, a ≠ 45) (hy : ∀ a ∈ ys, a ≠ 45)
    (h : xs ++ 45 :: zs = ys ++ 45 :: ws) : xs = ys ∧ zs = ws := by
  induction xs generalizing ys with
  | nil =>
    cases ys with
    | nil => simpa using h
    | cons b bs =>
      rw [List.nil_append, List.cons_append, List.cons.injEq] at h
      exact absurd h.1.symm (hy b (by simp))
  | cons a as ih =>
    cases ys with
    | nil =>
      rw [List.nil_append, List.cons_append, List.cons.injEq] at h
      exact absurd h.1 (hx a (by simp))
    | cons b bs =>
      rw [List.cons_append, List.cons_append, List.cons.injEq] at h
      have := ih (fun x hx' => hx x (by simp [hx'])) (fun x hy' => hy x (by simp [hy'])) h.2
      exact ⟨by rw [h.1, this.1], this.2⟩

/-- Distinct `(path, version)` pairs get distinct content-store file
names, provided the records carry the signature of their own path and a
nonnegative version (true of every record a commit writes). -/
theorem fileName_inj {c₁ c₂ : Commit}
    (hs₁ : c₁.pathSig = pathSigOf c₁.path) (hs₂ : c₂.pathSig = pathSigOf c₂.path)
    (hv₁ : 0 ≤ c₁.version) (hv₂ : 0 ≤ c₂.version)
    (h : fileName c₁ = fileName c₂) :
    c₁.path = c₂.path ∧ c₁.version = c₂.version := by
  unfold fileName at h
  rw [hs₁, hs₂] at h
  have := append_sep_inj pathSigOf_ne_45 pathSigOf_ne_45 h
  exact ⟨pathSigOf_inj this.1, goPadInt_inj_nonneg hv₁ hv₂ this.2⟩

/-! ## Lemmas: the content store -/

theorem storeRead_write_self (s : Store) (k : Str) (v : Bytes) :
    storeRead (storeWrite s k v) k = some v := by
  simp [storeRead, storeWrite, List.find?]

theorem find?_filter_of_imp {α : Type} (l : List α) (p q : α → Bool)
    (h : ∀ x, p x = true → q x = true) :
    (l.filter q).find? p = l.find? p := by
  induction l with
  | nil => rfl
  | cons x xs ih =>
    by_cases hp : p x = true
    · rw [List.filter_cons, if_pos (h x hp)]
      rw [List.find?_cons_of_pos _ hp, List.find?_cons_of_pos _ hp]
    · rw [List.find?_cons_of_neg _ (by simpa using hp), List.filter_cons]
      split
      · rw [List.find?_cons_of_neg _ (by simpa using hp)]
        exact ih
      · exact ih

theorem storeRead_write_ne (s : Store) (k k' : Str) (v : Bytes)
    (h : k' ≠ k) : storeRead (storeWrite s k v) k' = storeRead s k' := by
  unfold storeRead storeWrite
  rw [List.find?_cons_of_neg _ (by simp only [beq_iff_eq]; exact fun hc => h hc.symm)]
  rw [find?_filter_of_imp]
  intro e he
  simp only [beq_iff_eq] at he
  simp [he, h]

/-! ## Lemmas: the shape of `commitOp` outcomes -/

/-- The record a successful commit builds. -/
def newCmt (q : Str → Str) (st : IndexState) (path : Str) (basedOn : Int)
    (changes : Str) (data : Bytes) (now : Nat) : Commit :=
  { path := path, when := now,
    version := currVersion (sortCommits st.log) path + 1, basedOn := basedOn,
    pathSig := pathSigOf path, dataCrc := crc32 data, changes := q changes }

theorem commitOp_readErr (q : Str → Str) (st : IndexState) (path : Str)
    (basedOn : Int) (changes : Str) (now : Nat) (oracle : IOOracle) :
    commitOp q st path basedOn changes none now oracle = ⟨.readError, st, []⟩ := rfl

theorem commitOp_invalid (q : Str → Str) (st : IndexState) (path : Str)
    (basedOn : Int) (changes : Str) (data : Bytes) (now : Nat) (oracle : IOOracle)
    (h : basedOn ≠ 0 ∧ basedOn > currVersion (sortCommits st.log) path) :
    commitOp q st path basedOn changes (some data) now oracle =
      ⟨.invalidBase basedOn, st, []⟩ := by
  unfold commitOp
  dsimp only
  rw [if_pos h]

theorem commitOp_writeFail (q : Str → Str) (st : IndexState) (path : Str)
    (basedOn : Int) (changes : Str) (data : Bytes) (now : Nat) (oracle : IOOracle)
    (h : ¬(basedOn ≠ 0 ∧ basedOn > currVersion (sortCommits st.log) path))
    (hw : oracle.contentWriteOk = false) :
    commitOp q st path basedOn changes (some data) now oracle =
      ⟨.writeContentError, st, []⟩ := by
  unfold commitOp
  dsimp only
  rw [if_neg h, if_pos hw]

theorem commitOp_appendFail (q : Str → Str) (st : IndexState) (path : Str)
    (basedOn : Int) (changes : Str) (data : Bytes) (now : Nat) (oracle : IOOracle)
    (h : ¬(basedOn ≠ 0 ∧ basedOn > currVersion (sortCommits st.log) path))
    (hw : oracle.contentWriteOk = true) (ha : oracle.appendOk = false) :
    commitOp q st path basedOn changes (some data) now oracle =
      ⟨.appendError,
       ⟨st.log, storeWrite st.store (fileName (newCmt q st path basedOn changes data now)) data⟩,
       [.writeContent (fileName (newCmt q st path basedOn changes data now)) data]⟩ := by
  unfold commitOp newCmt
  dsimp only
  rw [if_neg h, if_neg (by simp [hw]), if_pos ha]

theorem commitOp_ok (q : Str → Str) (st : IndexState) (path : Str)
    (basedOn : Int) (changes : Str) (data : Bytes) (now : Nat) (oracle : IOOracle)
    (h : ¬(basedOn ≠ 0 ∧ basedOn > currVersion (sortCommits st.log) path))
    (hw : oracle.contentWriteOk = true) (ha : oracle.appendOk = true) :
    commitOp q st path basedOn changes (some data) now oracle =
      ⟨.ok,
       ⟨st.log ++ [newCmt q st path basedOn changes data now],
        storeWrite st.store (fileName (newCmt q st path basedOn changes data now)) data⟩,
       [.writeContent (fileName (newCmt q st path basedOn changes data now)) data,
        .appendLog (newCmt q st path basedOn changes data now)]⟩ := by
  unfold commitOp newCmt
  dsimp only
  rw [if_neg h, if_neg (by simp [hw]), if_neg (by simp [ha])]

/-- Anything other than a fully successful commit leaves the index file
unchanged (only a failed append may have written a content file). -/
theorem commitOp_log_of_not_ok (q : Str → Str) (st : IndexState) (path : Str)
    (basedOn : Int) (changes : Str) (rr : Option Bytes) (now : Nat) (oracle : IOOracle)
    (h : (commitOp q st path basedOn changes rr now oracle).result ≠ .ok) :
    (commitOp q st path basedOn changes rr now oracle).state.log = st.log := by
  cases rr with
  | none => rw [commitOp_readErr]
  | some data =>
    by_cases hv : basedOn ≠ 0 ∧ basedOn > currVersion (sortCommits st.log) path
    · rw [commitOp_invalid _ _ _ _ _ _ _ _ hv]
    · cases hw : oracle.contentWriteOk with
      | false => rw [commitOp_writeFail _ _ _ _ _ _ _ _ hv hw]
      | true =>
        cases ha : oracle.appendOk with
        | false => rw [commitOp_appendFail _ _ _ _ _ _ _ _ hv hw ha]
        | true => exact absurd (by rw [commitOp_ok _ _ _ _ _ _ _ _ hv hw ha]) h

/-- Inversion: a successful commit happened iff the read succeeded, the
base was valid and both writes went through; and then the outcome has the
canonical successful shape. -/
theorem commitOp_ok_inv (q : Str → Str) (st : IndexState) (path : Str)
    (basedOn : Int) (changes : Str) (rr : Option Bytes) (now : Nat) (oracle : IOOracle)
    (h : (commitOp q st path basedOn changes rr now oracle).result = .ok) :
    ∃ data, rr = some data ∧
      ¬(basedOn ≠ 0 ∧ basedOn > currVersion (sortCommits st.log) path) ∧
      oracle.contentWriteOk = true ∧ oracle.appendOk = true ∧
      commitOp q st path basedOn changes rr now oracle =
        ⟨.ok,
         ⟨st.log ++ [newCmt q st path basedOn changes data now],
          storeWrite st.store (fileName (newCmt q st path basedOn changes data now)) data⟩,
         [.writeContent (fileName (newCmt q st path basedOn changes data now)) data,
          .appendLog (newCmt q st path basedOn changes data now)]⟩ := by
  cases rr with
  | none => rw [commitOp_readErr] at h; cases h
  | some data =>
    refine ⟨data, rfl, ?_⟩
    by_cases hv : basedOn ≠ 0 ∧ basedOn > currVersion (sortCommits st.log) path
    · rw [commitOp_invalid _ _ _ _ _ _ _ _ hv] at h; cases h
    · refine ⟨hv, ?_⟩
      cases hw : oracle.contentWriteOk with
      | false => rw [commitOp_writeFail _ _ _ _ _ _ _ _ hv hw] at h; cases h
      | true =>
        cases ha : oracle.appendOk with
        | false => rw [commitOp_appendFail _ _ _ _ _ _ _ _ hv hw ha] at h; cases h
        | true => exact ⟨rfl, rfl, commitOp_ok _ _ _ _ _ _ _ _ hv hw ha⟩

/-! ## The reachability invariant -/

/-- Invariant of every state reachable by commits from the empty state:
for each path the recorded versions are exactly `1..k` in log order, and
every record carries the signature of its own path. -/
structure Inv (st : IndexState) : Prop where
  versions : ∀ p, versionsOf st.log p = intRange1 (versionsOf st.log p).length
  sig : ∀ c ∈ st.log, c.pathSig = pathSigOf c.path

theorem inv_init : Inv initState :=
  ⟨fun _ => rfl, fun _ h => absurd h (List.not_mem_nil _)⟩

theorem versionsOf_append (l₁ l₂ : List Commit) (p : Str) :
    versionsOf (l₁ ++ l₂) p = versionsOf l₁ p ++ versionsOf l₂ p := by
  unfold versionsOf
  rw [List.filter_append, List.map_append]

theorem version_mem_versionsOf {l : List Commit} {c : Commit} (h : c ∈ l) :
    c.version ∈ versionsOf l c.path := by
  unfold versionsOf
  exact List.mem_map_of_mem _ (List.mem_filter.mpr ⟨h, by simp⟩)

/-- Under the invariant every recorded version is at least 1. -/
theorem inv_version_pos {st : IndexState} (hInv : Inv st) :
    ∀ c ∈ st.log, 1 ≤ c.version := by
  intro c hc
  have hm := version_mem_versionsOf hc
  rw [hInv.versions c.path, mem_intRange1] at hm
  exact hm.1

/-- A commit from an invariant state preserves the invariant. -/
theorem inv_step {st : IndexState} (hInv : Inv st) (q : Str → Str) (path : Str)
    (basedOn : Int) (changes : Str) (rr : Option Bytes) (now : Nat) (oracle : IOOracle) :
    Inv (commitOp q st path basedOn changes rr now oracle).state := by
  by_cases hok : (commitOp q st path basedOn changes rr now oracle).result = .ok
  · obtain ⟨data, _, _, _, _, heq⟩ := commitOp_ok_inv _ _ _ _ _ _ _ _ hok
    rw [heq]
    constructor
    · intro p
      rw [versionsOf_append]
      by_cases hp : p = path
      · subst hp
        have hv : versionsOf [newCmt q st p basedOn changes data now] p =
            [currVersion (sortCommits st.log) p + 1] := by
          unfold versionsOf newCmt
          simp
        have hk := hInv.versions p
        have hcv : currVersion (sortCommits st.log) p =
            ((versionsOf st.log p).length : Int) :=
          (currVersion_sortCommits st.log p).trans (currVersion_of_versions hk)
        rw [hv, hcv, List.length_append, List.length_singleton, intRange1_succ]
        conv_lhs => rw [hk]
        rw [intRange1_length]
      · have hv : versionsOf [newCmt q st path basedOn changes data now] p = [] := by
          unfold versionsOf newCmt
          simp [Ne.symm hp]
        rw [hv, List.append_nil]
        exact hInv.versions p
    · intro c hc
      rw [List.mem_append] at hc
      rcases hc with hc | hc
      · exact hInv.sig c hc
      · rw [List.mem_singleton] at hc
        subst hc
        rfl
  · constructor
    · intro p
      rw [commitOp_log_of_not_ok _ _ _ _ _ _ _ _ hok]
      exact hInv.versions p
    · intro c hc
      rw [commitOp_log_of_not_ok _ _ _ _ _ _ _ _ hok] at hc
      exact hInv.sig c hc

theorem inv_runFrom {st : IndexState} (hInv : Inv st) (q : Str → Str)
    (calls : List CommitCall) : Inv (runFrom q st calls) := by
  induction calls generalizing st with
  | nil => exact hInv
  | cons c cs ih =>
    exact ih (inv_step hInv q c.path c.basedOn c.changes c.readResult c.now c.oracle)

theorem inv_runCommits (q : Str → Str) (calls : List CommitCall) :
    Inv (runCommits q calls) :=
  inv_runFrom inv_init q calls

/-- The identity used to instantiate the `strconv.Quote` parameter in
concrete witnesses (no proved property depends on the quoting function). -/
def idq : Str → Str := fun s => s

/-! ## Claim C2 -/

/-- C2: after any sequence of commits from the empty state, the versions
recorded for a path `p` are exactly `1, 2, ..., k` (in order, no gaps, no
duplicates), `currVersion` — as computed by the code over the loaded,
sorted records — equals that maximum `k` (0 when `p` is untracked), and
every successful commit appends exactly one record carrying version
`currVersion(p) + 1`. -/
theorem claim_C2_versions_contiguous :
    (∀ (q : Str → Str) (calls : List CommitCall) (p : Str),
      versionsOf (runCommits q calls).log p =
        intRange1 (versionsOf (runCommits q calls).log p).length ∧
      currVersion (sortCommits (runCommits q calls).log) p =
        ((versionsOf (runCommits q calls).log p).length : Int) ∧
      (∀ v : Int, v ∈ versionsOf (runCommits q calls).log p ↔
        1 ≤ v ∧ v ≤ ((versionsOf (runCommits q calls).log p).length : Int)) ∧
      (versionsOf (runCommits q calls).log p).Nodup) ∧
    (∀ (q : Str → Str) (st : IndexState) (p : Str) (b : Int) (m : Str)
        (data : Bytes) (now : Nat) (oracle : IOOracle),
      (commitOp q st p b m (some data) now oracle).result = .ok →
      (commitOp q st p b m (some data) now oracle).state.log =
        st.log ++ [newCmt q st p b m data now] ∧
      (newCmt q st p b m data now).version =
        currVersion (sortCommits st.log) p + 1) := by
  constructor
  · intro q calls p
    have hInv := inv_runCommits q calls
    have hk := hInv.versions p
    refine ⟨hk, ?_, ?_, ?_⟩
    · exact (currVersion_sortCommits _ p).trans (currVersion_of_versions hk)
    · intro v
      conv_lhs => rw [hk]
      rw [mem_intRange1]
    · rw [hk]
      exact intRange1_nodup _
  · intro q st p b m data now oracle h
    obtain ⟨data', hd, hv, hw, ha, heq⟩ := commitOp_ok_inv _ _ _ _ _ _ _ _ h
    obtain rfl : data = data' := by injection hd
    rw [heq]
    exact ⟨rfl, rfl⟩

/-- Witness for C2 at a concrete input: committing to path `"a"` from the
empty state appends one record with version `currVersion + 1 = 1`. -/
theorem claim_C2_versions_contiguous_witness :
    (commitOp idq initState [97] 0 [] (some [104]) 0 ⟨true, true⟩).state.log =
      initState.log ++ [newCmt idq initState [97] 0 [] [104] 0] ∧
    (newCmt idq initState [97] 0 [] [104] 0).version =
      currVersion (sortCommits initState.log) [97] + 1 :=
  claim_C2_versions_contiguous.2 idq initState [97] 0 [] [104] 0 ⟨true, true⟩ (by decide)

/-! ## Claim C3 -/

/-- C3: a commit whose `basedOn` is nonzero and exceeds the current
version of the path fails with the invalid-base error, leaves the entire
durable state (version log and content store) unchanged, and performs no
durable write at all. -/
theorem claim_C3_invalid_base (q : Str → Str) (st : IndexState) (path : Str)
    (basedOn : Int) (changes : Str) (data : Bytes) (now : Nat) (oracle : IOOracle)
    (h0 : basedOn ≠ 0) (hgt : basedOn > currVersion (sortCommits st.log) path) :
    (commitOp q st path basedOn changes (some data) now oracle).result =
      .invalidBase basedOn ∧
    (commitOp q st path basedOn changes (some data) now oracle).state = st ∧
    (commitOp q st path basedOn changes (some data) now oracle).events = [] := by
  rw [commitOp_invalid _ _ _ _ _ _ _ _ ⟨h0, hgt⟩]
  exact ⟨rfl, rfl, rfl⟩

/-- Witness for C3 at a concrete input: `basedOn = 1` on an untracked
path (current version 0) is rejected with no state change. -/
theorem claim_C3_invalid_base_witness :
    (commitOp idq initState [97] 1 [] (some [104]) 0 ⟨true, true⟩).result =
      .invalidBase 1 ∧
    (commitOp idq initState [97] 1 [] (some [104]) 0 ⟨true, true⟩).state = initState ∧
    (commitOp idq initState [97] 1 [] (some [104]) 0 ⟨true, true⟩).events = [] :=
  claim_C3_invalid_base idq initState [97] 1 [] [104] 0 ⟨true, true⟩
    (by decide) (by decide)

/-! ## Claim C4 -/

/-- C4: the content bytes of a new version are durably written strictly
before the log record is appended — an `appendLog` event only ever occurs
immediately after the `writeContent` event for that record's store file,
whose bytes the record's checksum was computed over — and when the
content write fails, no log append is performed and the version log is
unchanged. -/
theorem claim_C4_content_before_log (q : Str → Str) (st : IndexState) (path : Str)
    (basedOn : Int) (changes : Str) (rr : Option Bytes) (now : Nat) (oracle : IOOracle) :
    (oracle.contentWriteOk = false →
      (commitOp q st path basedOn changes rr now oracle).events = [] ∧
      (commitOp q st path basedOn changes rr now oracle).state.log = st.log) ∧
    (∀ c, IOEvent.appendLog c ∈ (commitOp q st path basedOn changes rr now oracle).events →
      ∃ data, (commitOp q st path basedOn changes rr now oracle).events =
          [IOEvent.writeContent (fileName c) data, IOEvent.appendLog c] ∧
        c.dataCrc = crc32 data ∧
        storeRead (commitOp q st path basedOn changes rr now oracle).state.store
          (fileName c) = some data) := by
  cases rr with
  | none =>
    rw [commitOp_readErr]
    exact ⟨fun _ => ⟨rfl, rfl⟩, fun c hc => absurd hc (List.not_mem_nil _)⟩
  | some data =>
    by_cases hv : basedOn ≠ 0 ∧ basedOn > currVersion (sortCommits st.log) path
    · rw [commitOp_invalid _ _ _ _ _ _ _ _ hv]
      exact ⟨fun _ => ⟨rfl, rfl⟩, fun c hc => absurd hc (List.not_mem_nil _)⟩
    · cases hw : oracle.contentWriteOk with
      | false =>
        rw [commitOp_writeFail _ _ _ _ _ _ _ _ hv hw]
        exact ⟨fun _ => ⟨rfl, rfl⟩, fun c hc => absurd hc (List.not_mem_nil _)⟩
      | true =>
        cases ha : oracle.appendOk with
        | false =>
          rw [commitOp_appendFail _ _ _ _ _ _ _ _ hv hw ha]
          constructor
          · intro h
            exact Bool.noConfusion h
          · intro c hc
            rw [List.mem_singleton] at hc
            cases hc
        | true =>
          rw [commitOp_ok _ _ _ _ _ _ _ _ hv hw ha]
          constructor
          · intro h
            exact Bool.noConfusion h
          · intro c hc
            rw [List.mem_cons, List.mem_singleton] at hc
            rcases hc with hc | hc
            · cases hc
            · obtain rfl : c = newCmt q st path basedOn changes data now := by
                injection hc
              exact ⟨data, rfl, rfl, storeRead_write_self _ _ _⟩

/-- Witness for C4 at concrete inputs: a commit whose content write fails
leaves no events and an unchanged log; a successful commit's append event
is preceded by the matching content write. -/
theorem claim_C4_content_before_log_witness :
    ((commitOp idq initState [97] 0 [] (some [104]) 0 ⟨false, true⟩).events = [] ∧
     (commitOp idq initState [97] 0 [] (some [104]) 0 ⟨false, true⟩).state.log =
       initState.log) ∧
    ∃ data, (commitOp idq initState [97] 0 [] (some [104]) 0 ⟨true, true⟩).events =
        [IOEvent.writeContent (fileName (newCmt idq initState [97] 0 [] [104] 0)) data,
         IOEvent.appendLog (newCmt idq initState [97] 0 [] [104] 0)] ∧
      (newCmt idq initState [97] 0 [] [104] 0).dataCrc = crc32 data ∧
      storeRead (commitOp idq initState [97] 0 [] (some [104]) 0 ⟨true, true⟩).state.store
        (fileName (newCmt idq initState [97] 0 [] [104] 0)) = some data :=
  ⟨(claim_C4_content_before_log idq initState [97] 0 [] (some [104]) 0 ⟨false, true⟩).1 rfl,
   (claim_C4_content_before_log idq initState [97] 0 [] (some [104]) 0 ⟨true, true⟩).2
     (newCmt idq initState [97] 0 [] [104] 0) (by decide)⟩

/-! ## Claim C9 (corrected) -/

/-- C9 is false as stated: a commit with the negative base `-1` from the
empty state succeeds and appends a record whose `basedOn` is `-1` — the
validation `basedOn != 0 && basedOn > currVersion` does not reject
negative bases. -/
theorem claim_C9_counterexample :
    (commitOp idq initState [97] (-1) [] (some [104]) 0 ⟨true, true⟩).result = .ok ∧
    (commitOp idq initState [97] (-1) [] (some [104]) 0 ⟨true, true⟩).state.log.map
      (fun c => c.basedOn) = [-1] := by
  constructor
  · decide
  · decide

/-- C9 (amended): commit validates `basedOn` only by
`basedOn != 0 && basedOn > currVersion(path)`; since `currVersion ≥ 0`, a
negative `basedOn` always passes validation, the commit succeeds (when the
reads and writes succeed) and the appended record carries that negative
`basedOn` unchanged. -/
theorem claim_C9_amended (q : Str → Str) (st : IndexState) (path : Str)
    (b : Int) (changes : Str) (data : Bytes) (now : Nat)
    (hb : b < 0) :
    (commitOp q st path b changes (some data) now ⟨true, true⟩).result = .ok ∧
    (commitOp q st path b changes (some data) now ⟨true, true⟩).state.log =
      st.log ++ [newCmt q st path b changes data now] ∧
    (newCmt q st path b changes data now).basedOn = b := by
  have hv : ¬(b ≠ 0 ∧ b > currVersion (sortCommits st.log) path) := by
    rintro ⟨_, hgt⟩
    have := currVersion_nonneg (sortCommits st.log) path
    omega
  rw [commitOp_ok _ _ _ _ _ _ _ _ hv rfl rfl]
  exact ⟨rfl, rfl, rfl⟩

/-- Witness for the amended C9 at a concrete input. -/
theorem claim_C9_amended_witness :
    (commitOp idq initState [98] (-2) [] (some [105]) 0 ⟨true, true⟩).result = .ok ∧
    (commitOp idq initState [98] (-2) [] (some [105]) 0 ⟨true, true⟩).state.log =
      initState.log ++ [newCmt idq initState [98] (-2) [] [105] 0] ∧
    (newCmt idq initState [98] (-2) [] [105] 0).basedOn = -2 :=
  claim_C9_amended idq initState [98] (-2) [] [105] 0 (by decide)

/-! ## Claim C1: round-trip integrity -/

/-- Two records with the same path and version in an invariant log are the
same record (per-path versions have no duplicates). -/
theorem inv_unique {st : IndexState} (hInv : Inv st) {c₁ c₂ : Commit}
    (h₁ : c₁ ∈ st.log) (h₂ : c₂ ∈ st.log) (hp : c₁.path = c₂.path)
    (hv : c₁.version = c₂.version) : c₁ = c₂ := by
  have hnd : (versionsOf st.log c₁.path).Nodup := by
    rw [hInv.versions]
    exact intRange1_nodup _
  unfold versionsOf at hnd
  have m₁ : c₁ ∈ st.log.filter (fun c => c.path = c₁.path) :=
    List.mem_filter.mpr ⟨h₁, by simp⟩
  have m₂ : c₂ ∈ st.log.filter (fun c => c.path = c₁.path) :=
    List.mem_filter.mpr ⟨h₂, by simp [hp.symm]⟩
  exact List.inj_on_of_nodup_map hnd m₁ m₂ hv

/-- The store file a commit writes never collides with the store file of
any record already in an invariant log: same path means a strictly larger
version, different paths have different signatures. -/
theorem newCmt_fileName_ne {st : IndexState} (hInv : Inv st) {cmt : Commit}
    (hmem : cmt ∈ st.log) (q : Str → Str) (path : Str) (basedOn : Int)
    (changes : Str) (data : Bytes) (now : Nat) :
    fileName (newCmt q st path basedOn changes data now) ≠ fileName cmt := by
  intro h
  have hsig : cmt.pathSig = pathSigOf cmt.path := hInv.sig cmt hmem
  have hv1 : 1 ≤ cmt.version := inv_version_pos hInv cmt hmem
  have hnn : (0 : Int) ≤ (newCmt q st path basedOn changes data now).version := by
    have := currVersion_nonneg (sortCommits st.log) path
    unfold newCmt
    dsimp only
    omega
  have hinj := fileName_inj (rfl) hsig hnn (by omega) h
  obtain ⟨hp, hver⟩ := hinj
  have hple : cmt.version ≤ currVersion (sortCommits st.log) path :=
    version_le_currVersion (mem_sortCommits.mpr hmem) hp.symm
  unfold newCmt at hver
  dsimp only at hver
  omega

/-- One further commit preserves a tracked log record together with its
store contents. -/
theorem tracked_step {st : IndexState} (hInv : Inv st) {cmt : Commit} {B : Bytes}
    (hmem : cmt ∈ st.log) (hread : storeRead st.store (fileName cmt) = some B)
    (q : Str → Str) (path : Str) (basedOn : Int) (changes : Str) (rr : Option Bytes)
    (now : Nat) (oracle : IOOracle) :
    cmt ∈ (commitOp q st path basedOn changes rr now oracle).state.log ∧
    storeRead (commitOp q st path basedOn changes rr now oracle).state.store
      (fileName cmt) = some B := by
  cases rr with
  | none => rw [commitOp_readErr]; exact ⟨hmem, hread⟩
  | some data =>
    by_cases hv : basedOn ≠ 0 ∧ basedOn > currVersion (sortCommits st.log) path
    · rw [commitOp_invalid _ _ _ _ _ _ _ _ hv]; exact ⟨hmem, hread⟩
    · cases hw : oracle.contentWriteOk with
      | false => rw [commitOp_writeFail _ _ _ _ _ _ _ _ hv hw]; exact ⟨hmem, hread⟩
      | true =>
        have hne : fileName cmt ≠
            fileName (newCmt q st path basedOn changes data now) :=
          (newCmt_fileName_ne hInv hmem q path basedOn changes data now).symm
        cases ha : oracle.appendOk with
        | false =>
          rw [commitOp_appendFail _ _ _ _ _ _ _ _ hv hw ha]
          exact ⟨hmem, by rw [storeRead_write_ne _ _ _ _ hne]; exact hread⟩
        | true =>
          rw [commitOp_ok _ _ _ _ _ _ _ _ hv hw ha]
          refine ⟨List.mem_append_left _ hmem, ?_⟩
          rw [storeRead_write_ne _ _ _ _ hne]
          exact hread

/-- Any sequence of further commits preserves a tracked log record
together with its store contents. -/
theorem tracked_runFrom {st : IndexState} (hInv : Inv st) {cmt : Commit} {B : Bytes}
    (hmem : cmt ∈ st.log) (hread : storeRead st.store (fileName cmt) = some B)
    (q : Str → Str) (calls : List CommitCall) :
    cmt ∈ (runFrom q st calls).log ∧
    storeRead (runFrom q st calls).store (fileName cmt) = some B := by
  induction calls generalizing st with
  | nil => exact ⟨hmem, hread⟩
  | cons c cs ih =>
    have h₁ := tracked_step hInv hmem hread q c.path c.basedOn c.changes
      c.readResult c.now c.oracle
    exact ih (inv_step hInv q c.path c.basedOn c.changes c.readResult c.now c.oracle)
      h₁.1 h₁.2

/-- `extract` succeeds and returns the stored bytes when an invariant log
holds the record and the store holds bytes matching its checksum. -/
theorem extract_found {st : IndexState} (hInv : Inv st) {cmt : Commit} {B : Bytes}
    (hmem : cmt ∈ st.log) (hread : storeRead st.store (fileName cmt) = some B)
    (hcrc : crc32 B = cmt.dataCrc) :
    extractOp st cmt.path cmt.version = .found B := by
  have hex : (List.find? (fun c => c.path == cmt.path && c.version == cmt.version)
      (sortCommits st.log)).isSome := by
    rw [List.find?_isSome]
    exact ⟨cmt, mem_sortCommits.mpr hmem, by simp⟩
  obtain ⟨c₀, hfind⟩ := Option.isSome_iff_exists.mp hex
  have hpred := List.find?_some hfind
  simp only [Bool.and_eq_true, beq_iff_eq] at hpred
  have hc₀mem : c₀ ∈ st.log := mem_sortCommits.mp (List.mem_of_find?_eq_some hfind)
  obtain rfl : c₀ = cmt := inv_unique hInv hc₀mem hmem hpred.1 hpred.2
  unfold extractOp
  dsimp only
  rw [hfind]
  dsimp only
  rw [hread]
  dsimp only
  rw [if_neg (fun hne => hne hcrc)]

/-! ## Claim C5: extract error taxonomy -/

/-- C5: `extract(p, v)` reports not-found exactly when no record matches
`(p, v)`; when a record is found and its store file holds bytes `data`,
the result is the (distinct) corruption error exactly when the recomputed
CRC-32 of `data` differs from the record's `dataCrc`, and is exactly the
stored bytes otherwise. -/
theorem claim_C5_extract_errors :
    (∀ (st : IndexState) (p : Str) (v : Int),
      extractOp st p v = .notFound ↔
        ∀ c ∈ st.log, ¬(c.path = p ∧ c.version = v)) ∧
    (∀ (st : IndexState) (p : Str) (v : Int) (c : Commit) (data : Bytes),
      List.find? (fun c => c.path == p && c.version == v) (sortCommits st.log) =
        some c →
      storeRead st.store (fileName c) = some data →
      ((extractOp st p v = .corrupted c.dataCrc (crc32 data) ↔
          crc32 data ≠ c.dataCrc) ∧
       (extractOp st p v = .found data ↔ crc32 data = c.dataCrc))) := by
  constructor
  · intro st p v
    unfold extractOp
    dsimp only
    cases hfind : List.find? (fun c => c.path == p && c.version == v)
        (sortCommits st.log) with
    | none =>
      dsimp only
      constructor
      · intro _ c hc hpv
        have := List.find?_eq_none.mp hfind c (mem_sortCommits.mpr hc)
        simp only [Bool.and_eq_true, beq_iff_eq, not_and] at this
        exact this hpv.1 hpv.2
      · intro _
        rfl
    | some c =>
      dsimp only
      constructor
      · intro hres
        exfalso
        cases hr : storeRead st.store (fileName c) with
        | none => rw [hr] at hres; cases hres
        | some d =>
          rw [hr] at hres
          dsimp only at hres
          by_cases hcrc : crc32 d ≠ c.dataCrc
          · rw [if_pos hcrc] at hres; cases hres
          · rw [if_neg hcrc] at hres; cases hres
      · intro hall
        exfalso
        have hpred := List.find?_some hfind
        simp only [Bool.and_eq_true, beq_iff_eq] at hpred
        exact hall c (mem_sortCommits.mp (List.mem_of_find?_eq_some hfind))
          ⟨hpred.1, hpred.2⟩
  · intro st p v c data hfind hread
    have hres : extractOp st p v =
        if crc32 data ≠ c.dataCrc then ExtractResult.corrupted c.dataCrc (crc32 data)
        else ExtractResult.found data := by
      unfold extractOp
      dsimp only
      rw [hfind]
      dsimp only
      rw [hread]
    by_cases hcrc : crc32 data ≠ c.dataCrc
    · rw [hres, if_pos hcrc]
      constructor
      · exact ⟨fun _ => hcrc, fun _ => rfl⟩
      · constructor
        · intro h; cases h
        · intro h; exact absurd h hcrc
    · rw [hres, if_neg hcrc]
      constructor
      · constructor
        · intro h; cases h
        · intro h; exact absurd h hcrc
      · exact ⟨fun _ => not_ne_iff.mp hcrc, fun _ => rfl⟩

/-- The record of the concrete C5 witness state: path `"a"`, version 1,
checksum of the byte string `"h"`. -/
def c5rec : Commit :=
  { path := [97], when := 0, version := 1, basedOn := 0,
    pathSig := pathSigOf [97], dataCrc := crc32 [104], changes := [] }

/-- Witness for C5 at concrete inputs: a tampered store file yields the
corruption error, an intact one yields the bytes, and an unmatched
`(path, version)` yields not-found. -/
theorem claim_C5_extract_errors_witness :
    extractOp ⟨[c5rec], [(fileName c5rec, [105])]⟩ [97] 1 =
      .corrupted c5rec.dataCrc (crc32 [105]) ∧
    extractOp ⟨[c5rec], [(fileName c5rec, [104])]⟩ [97] 1 = .found [104] ∧
    extractOp ⟨[c5rec], []⟩ [98] 1 = .notFound :=
  ⟨((claim_C5_extract_errors.2 ⟨[c5rec], [(fileName c5rec, [105])]⟩ [97] 1 c5rec [105]
      (by decide) (by decide)).1).mpr (by decide),
   ((claim_C5_extract_errors.2 ⟨[c5rec], [(fileName c5rec, [104])]⟩ [97] 1 c5rec [104]
      (by decide) (by decide)).2).mpr (by decide),
   (claim_C5_extract_errors.1 ⟨[c5rec], []⟩ [98] 1).mpr (by decide)⟩

/-! ## Claim C7 (corrected): filter ordering -/

/-- C7 is false as stated: after two commits to path `"a"` the log holds
versions `[1, 2]` in append order, but `filter("a")` — which walks the
loaded records, sorted version-descending — returns them as `[2, 1]`, not
in log (append) order. -/
theorem claim_C7_counterexample :
    filterOp
      (runCommits idq [⟨[97], 0, [], some [104], 0, ⟨true, true⟩⟩,
        ⟨[97], 0, [], some [104, 105], 1, ⟨true, true⟩⟩]) [97] ≠
    (runCommits idq [⟨[97], 0, [], some [104], 0, ⟨true, true⟩⟩,
        ⟨[97], 0, [], some [104, 105], 1, ⟨true, true⟩⟩]).log.filter
      (fun c => c.path = [97]) := by
  decide

/-- C7 (amended): `filter(p)` returns exactly the records whose path is
`p` — the same multiset as the log-order filtration — but in the loaded
in-memory order: for one path, version strictly… descending (non-
ascending); `filter("")` returns all records, ordered by path ascending
then version descending. -/
theorem claim_C7_amended (st : IndexState) (p : Str) :
    (p ≠ [] →
      List.Perm (filterOp st p) (st.log.filter (fun c => c.path = p)) ∧
      (filterOp st p).Pairwise
        (fun a b => a.path = p ∧ b.path = p ∧ b.version ≤ a.version)) ∧
    (List.Perm (filterOp st []) st.log ∧
      (filterOp st []).Pairwise (fun a b => leC a b = true)) := by
  constructor
  · intro hp
    unfold filterOp filterCommits
    rw [if_neg hp]
    constructor
    · exact (sortCommits_perm st.log).filter _
    · have hpw : ((sortCommits st.log).filter (fun c => decide (c.path = p))).Pairwise
          (fun a b => leC a b = true) :=
        List.Pairwise.sublist (List.filter_sublist _) (sortCommits_pairwise st.log)
      refine hpw.imp_of_mem ?_
      intro a b ha hb hab
      have hpa : a.path = p := by
        have := (List.mem_filter.mp ha).2
        simpa using this
      have hpb : b.path = p := by
        have := (List.mem_filter.mp hb).2
        simpa using this
      refine ⟨hpa, hpb, ?_⟩
      unfold leC at hab
      rw [hpa, hpb, strLt_irrefl] at hab
      simpa using hab
  · constructor
    · exact sortCommits_perm st.log
    · exact sortCommits_pairwise st.log

/-- Witness for the amended C7 at a concrete input: two commits to `"a"`
and one to `"b"`. -/
theorem claim_C7_amended_witness :
    List.Perm
      (filterOp (runCommits idq [⟨[97], 0, [], some [104], 0, ⟨true, true⟩⟩,
        ⟨[98], 0, [], some [106], 1, ⟨true, true⟩⟩,
        ⟨[97], 0, [], some [104, 105], 2, ⟨true, true⟩⟩]) [97])
      ((runCommits idq [⟨[97], 0, [], some [104], 0, ⟨true, true⟩⟩,
        ⟨[98], 0, [], some [106], 1, ⟨true, true⟩⟩,
        ⟨[97], 0, [], some [104, 105], 2, ⟨true, true⟩⟩]).log.filter
        (fun c => c.path = [97])) ∧
    (filterOp (runCommits idq [⟨[97], 0, [], some [104], 0, ⟨true, true⟩⟩,
        ⟨[98], 0, [], some [106], 1, ⟨true, true⟩⟩,
        ⟨[97], 0, [], some [104, 105], 2, ⟨true, true⟩⟩]) [97]).Pairwise
      (fun a b => a.path = [97] ∧ b.path = [97] ∧ b.version ≤ a.version) :=
  (claim_C7_amended
    (runCommits idq [⟨[97], 0, [], some [104], 0, ⟨true, true⟩⟩,
      ⟨[98], 0, [], some [106], 1, ⟨true, true⟩⟩,
      ⟨[97], 0, [], some [104, 105], 2, ⟨true, true⟩⟩]) [97]).1 (by decide)

/-! ## Claims C8 and C10: tree reconstruction -/

theorem getD_set_self (l : List (List Nat)) (j : Nat) (x : List Nat)
    (h : j < l.length) : (l.set j x).getD j [] = x := by
  induction l generalizing j with
  | nil => cases h
  | cons a as ih =>
    cases j with
    | zero => rfl
    | succ k =>
      have : (a :: as).set (k + 1) x = a :: as.set k x := rfl
      rw [this]
      have : (a :: as.set k x).getD (k + 1) [] = (as.set k x).getD k [] := rfl
      rw [this]
      exact ih k (by simpa using h)

theorem getD_set_ne (l : List (List Nat)) (j j' : Nat) (x : List Nat)
    (h : j ≠ j') : (l.set j x).getD j' [] = l.getD j' [] := by
  induction l generalizing j j' with
  | nil => rfl
  | cons a as ih =>
    cases j with
    | zero =>
      cases j' with
      | zero => exact absurd rfl h
      | succ k' => rfl
    | succ k =>
      cases j' with
      | zero => rfl
      | succ k' => exact ih k k' (by omega)

/-- Indices produced by the lookup map are indices into the record
list. -/
theorem mLookup_lt {commits : List Commit} {p : Str} {v : Int} {j : Nat}
    (h : mLookup commits p v = some j) : j < commits.length := by
  unfold mLookup at h
  rw [Option.map_eq_some'] at h
  obtain ⟨e, hfind, hj⟩ := h
  have hmem := List.mem_of_find?_eq_some hfind
  rw [List.mem_reverse] at hmem
  have hget := List.mem_enum_iff_getElem?.mp hmem
  have hlt : e.1 < commits.length := by
    by_contra hge
    rw [List.getElem?_eq_none (by omega)] at hget
    cases hget
  omega

/-- The attachment loop succeeds iff every record with positive `basedOn`
resolves in the lookup map. -/
theorem treeAux_isSome (commits rest : List Commit) (i : Nat) (roots : List Nat)
    (descs : List (List Nat)) :
    (treeAux commits i rest (roots, descs)).isSome = true ↔
      ∀ c ∈ rest, c.basedOn > 0 →
        (mLookup commits c.path c.basedOn).isSome = true := by
  induction rest generalizing i roots descs with
  | nil => simp [treeAux]
  | cons c cs ih =>
    unfold treeAux
    by_cases hb : c.basedOn > 0
    · rw [if_pos hb]
      cases hm : mLookup commits c.path c.basedOn with
      | none =>
        dsimp only
        constructor
        · intro h
          cases h
        · intro hall
          exfalso
          have := hall c (List.mem_cons_self _ _) hb
          rw [hm] at this
          cases this
      | some j =>
        dsimp only
        rw [ih]
        constructor
        · intro h x hx hbx
          rcases List.mem_cons.mp hx with rfl | hx'
          · rw [hm]; rfl
          · exact h x hx' hbx
        · intro h x hx hbx
          exact h x (List.mem_cons_of_mem _ hx) hbx
    · rw [if_neg hb, ih]
      constructor
      · intro h x hx hbx
        rcases List.mem_cons.mp hx with rfl | hx'
        · exact absurd hbx hb
        · exact h x hx' hbx
      · intro h x hx hbx
        exact h x (List.mem_cons_of_mem _ hx) hbx

/-- What the attachment loop puts where: existing roots and children
survive, and each processed record lands either in the dummy's root list
or in its parent's child list. -/
theorem treeAux_mem (commits : List Commit) :
    ∀ (rest : List Commit) (i : Nat) (roots : List Nat) (descs : List (List Nat))
      (out : List Nat × List (List Nat)),
      treeAux commits i rest (roots, descs) = some out →
      descs.length = commits.length →
      (∀ j, j ∈ roots → j ∈ out.1) ∧
      (∀ j k, k ∈ descs.getD j [] → k ∈ out.2.getD j []) ∧
      (∀ k c, rest.get? k = some c →
        (¬ c.basedOn > 0 → (i + k) ∈ out.1) ∧
        (c.basedOn > 0 → ∃ j, mLookup commits c.path c.basedOn = some j ∧
          (i + k) ∈ out.2.getD j [])) := by
  intro rest
  induction rest with
  | nil =>
    intro i roots descs out h _
    obtain rfl : (roots, descs) = out := by
      unfold treeAux at h
      injection h
    refine ⟨fun j hj => hj, fun j k hk => hk, ?_⟩
    intro k c hk
    cases hk
  | cons c cs ih =>
    intro i roots descs out h hlen
    unfold treeAux at h
    by_cases hb : c.basedOn > 0
    · rw [if_pos hb] at h
      cases hm : mLookup commits c.path c.basedOn with
      | none => rw [hm] at h; cases h
      | some j =>
        rw [hm] at h
        dsimp only at h
        have hjlt : j < descs.length := hlen ▸ mLookup_lt hm
        have hlen' : (descs.set j (descs.getD j [] ++ [i])).length = commits.length := by
          rw [List.length_set]
          exact hlen
        obtain ⟨hroots, hdescs, hadds⟩ := ih (i + 1) roots _ out h hlen'
        refine ⟨hroots, ?_, ?_⟩
        · intro j' k hk
          by_cases hjj : j = j'
          · subst hjj
            refine hdescs j k ?_
            rw [getD_set_self _ _ _ hjlt]
            exact List.mem_append_left _ hk
          · refine hdescs j' k ?_
            rw [getD_set_ne _ _ _ _ hjj]
            exact hk
        · intro k x hk
          cases k with
          | zero =>
            obtain rfl : c = x := by injection hk
            refine ⟨fun hnb => absurd hb hnb, fun _ => ⟨j, hm, ?_⟩⟩
            have : i + 0 = i := rfl
            rw [this]
            refine hdescs j i ?_
            rw [getD_set_self _ _ _ hjlt]
            exact List.mem_append_right _ (List.mem_singleton.mpr rfl)
          | succ k' =>
            have hk' : cs.get? k' = some x := hk
            have := hadds k' x hk'
            have harith : i + (k' + 1) = (i + 1) + k' := by omega
            rw [harith]
            exact this
    · rw [if_neg hb] at h
      obtain ⟨hroots, hdescs, hadds⟩ := ih (i + 1) (roots ++ [i]) descs out h hlen
      refine ⟨fun j hj => hroots j (List.mem_append_left _ hj), hdescs, ?_⟩
      intro k x hk
      cases k with
      | zero =>
        obtain rfl : c = x := by injection hk
        refine ⟨fun _ => ?_, fun hbx => absurd hbx hb⟩
        have : i + 0 = i := rfl
        rw [this]
        exact hroots i (List.mem_append_right _ (List.mem_singleton.mpr rfl))
      | succ k' =>
        have hk' : cs.get? k' = some x := hk
        have := hadds k' x hk'
        have harith : i + (k' + 1) = (i + 1) + k' := by omega
        rw [harith]
        exact this

/-- Specialization of `treeAux_mem` to `treeBuild`. -/
theorem treeBuild_mem {commits : List Commit} {roots : List Nat}
    {descs : List (List Nat)} (h : treeBuild commits = some (roots, descs)) :
    ∀ k c, commits.get? k = some c →
      (¬ c.basedOn > 0 → k ∈ roots) ∧
      (c.basedOn > 0 → ∃ j, mLookup commits c.path c.basedOn = some j ∧
        k ∈ descs.getD j []) := by
  have := treeAux_mem commits commits 0 [] (List.replicate commits.length [])
    (roots, descs) h (List.length_replicate _ _)
  intro k c hk
  have h2 := this.2.2 k c hk
  simpa using h2

/-- The three records of the spec's tree-reconstruction example, all on
path `"p"`: v1 and v2 are roots (`basedOn = 0`), v3 branches off v1
(`basedOn = 1`). -/
def c8v1 : Commit :=
  { path := [112], when := 0, version := 1, basedOn := 0,
    pathSig := pathSigOf [112], dataCrc := 0, changes := [] }

def c8v2 : Commit :=
  { path := [112], when := 0, version := 2, basedOn := 0,
    pathSig := pathSigOf [112], dataCrc := 0, changes := [] }

def c8v3 : Commit :=
  { path := [112], when := 0, version := 3, basedOn := 1,
    pathSig := pathSigOf [112], dataCrc := 0, changes := [] }

/-- The durable state whose log holds the example records in commit
order. -/
def c8state : IndexState := ⟨[c8v1, c8v2, c8v3], []⟩

/-- C8: generally, tree construction makes every record with
`basedOn = 0` a child of the dummy root and attaches every record with
`basedOn > 0` to the record keyed `(path, basedOn)`; on the example
`{v1: basedOn 0, v2: basedOn 0, v3: basedOn 1}` the loaded order is
`[v3, v2, v1]` (version descending), so the forest returned is: roots =
indices `[1, 2]` — exactly v2 and v1 — the child list of index 2 (= v1)
is `[0]` — v3 as its only child — and v2 (index 1) has no children. -/
theorem claim_C8_tree_construction :
    (∀ (commits : List Commit) (roots : List Nat) (descs : List (List Nat)),
      treeBuild commits = some (roots, descs) →
      ∀ k c, commits.get? k = some c →
        (c.basedOn = 0 → k ∈ roots) ∧
        (c.basedOn > 0 → ∃ j, mLookup commits c.path c.basedOn = some j ∧
          k ∈ descs.getD j [])) ∧
    (filterOp c8state [112] = [c8v3, c8v2, c8v1] ∧
     treeOfCommitsOp c8state [112] = some ([1, 2], [[], [], [0]])) := by
  refine ⟨?_, by decide, by decide⟩
  intro commits roots descs h k c hk
  have := treeBuild_mem h k c hk
  exact ⟨fun hz => this.1 (by omega), this.2⟩

/-- Witness for C8 at the example input: record index 2 (v1, a root) and
index 0 (v3, attached under index 2). -/
theorem claim_C8_tree_construction_witness :
    ((c8v1.basedOn = 0 → 2 ∈ [1, 2]) ∧
     (c8v1.basedOn > 0 → ∃ j, mLookup (filterOp c8state [112]) c8v1.path c8v1.basedOn =
        some j ∧ 2 ∈ [[], [], [0]].getD j [])) ∧
    ((c8v3.basedOn = 0 → 0 ∈ [1, 2]) ∧
     (c8v3.basedOn > 0 → ∃ j, mLookup (filterOp c8state [112]) c8v3.path c8v3.basedOn =
        some j ∧ 0 ∈ [[], [], [0]].getD j [])) :=
  ⟨claim_C8_tree_construction.1 (filterOp c8state [112]) [1, 2] [[], [], [0]]
     (by decide) 2 c8v1 (by decide),
   claim_C8_tree_construction.1 (filterOp c8state [112]) [1, 2] [[], [], [0]]
     (by decide) 0 c8v3 (by decide)⟩

/-- A record whose nonzero `basedOn` (2) matches no record in the set. -/
def c10rec : Commit :=
  { path := [112], when := 0, version := 1, basedOn := 2,
    pathSig := pathSigOf [112], dataCrc := 0, changes := [] }

/-- C10: tree construction returns a forest precisely when every record
with positive `basedOn` resolves to a record with the same path and that
version within the filtered set; on the concrete input holding one record
with `basedOn = 2` and no version 2, the map lookup yields Go's nil
`*commit` and the loop appends through it — a nil-pointer dereference
panic, which the model renders as `none` instead of any error value. -/
theorem claim_C10_tree_nil_deref :
    (∀ commits : List Commit,
      (treeBuild commits).isSome = true ↔
        ∀ c ∈ commits, c.basedOn > 0 →
          (mLookup commits c.path c.basedOn).isSome = true) ∧
    treeOfCommitsOp ⟨[c10rec], []⟩ [112] = none := by
  constructor
  · intro commits
    exact treeAux_isSome commits commits 0 [] (List.replicate commits.length [])
  · decide

/-- Witness for C10 at concrete inputs: a two-record set whose `basedOn`
links all resolve builds a forest. -/
theorem claim_C10_tree_nil_deref_witness :
    (treeBuild
      [{ path := [113], when := 0, version := 1, basedOn := 0,
         pathSig := pathSigOf [113], dataCrc := 0, changes := [] },
       { path := [113], when := 0, version := 2, basedOn := 1,
         pathSig := pathSigOf [113], dataCrc := 0, changes := [] }]).isSome = true :=
  (claim_C10_tree_nil_deref.1
    [{ path := [113], when := 0, version := 1, basedOn := 0,
       pathSig := pathSigOf [113], dataCrc := 0, changes := [] },
     { path := [113], when := 0, version := 2, basedOn := 1,
       pathSig := pathSigOf [113], dataCrc := 0, changes := [] }]).mpr (by decide)

/-! ## Claim C6: line parsing and fatal load -/

/-- The load loop aborts (with no partial result) exactly when some line
fails to deserialize. -/
theorem loadLines_none_iff (pt : Str → Option Nat) (lines : List Str) :
    loadLines pt lines = none ↔ ∃ l ∈ lines, deserializeCommit pt l = none := by
  induction lines with
  | nil => simp [loadLines]
  | cons l ls ih =>
    unfold loadLines
    cases hd : deserializeCommit pt l with
    | none =>
      dsimp only
      constructor
      · intro _
        exact ⟨l, List.mem_cons_self _ _, hd⟩
      · intro _
        rfl
    | some c =>
      dsimp only
      cases hl : loadLines pt ls with
      | none =>
        dsimp only
        constructor
        · intro _
          obtain ⟨x, hx, hxd⟩ := ih.mp hl
          exact ⟨x, List.mem_cons_of_mem _ hx, hxd⟩
        · intro _
          rfl
      | some cs =>
        dsimp only
        constructor
        · intro h
          cases h
        · rintro ⟨x, hx, hxd⟩
          exfalso
          rcases List.mem_cons.mp hx with rfl | hx'
          · rw [hd] at hxd
            cases hxd
          · have : loadLines pt ls = none := ih.mpr ⟨x, hx', hxd⟩
            rw [hl] at this
            cases this

/-- C6: one log line deserializes successfully iff it has exactly 7
tab-separated fields whose timestamp field parses (RFC3339, abstracted as
the `parseTime` parameter) and whose version, basedOn and checksum fields
parse as integers (the checksum as an unsigned 32-bit integer); and the
load aborts fatally — yielding nothing, no partial or best-effort list —
exactly when some line of the file is malformed in that sense. -/
theorem claim_C6_line_parsing :
    (∀ (parseTime : Str → Option Nat) (s : Str),
      (deserializeCommit parseTime s).isSome = true ↔
        ((splitTabs s).length = 7 ∧
         (parseTime ((splitTabs s).getD 1 [])).isSome = true ∧
         (goAtoi ((splitTabs s).getD 2 [])).isSome = true ∧
         (goAtoi ((splitTabs s).getD 3 [])).isSome = true ∧
         (goParseUint32 ((splitTabs s).getD 5 [])).isSome = true)) ∧
    (∀ (parseTime : Str → Option Nat) (lines : List Str),
      loadCommitsOp parseTime lines = none ↔
        ∃ l ∈ lines, deserializeCommit parseTime l = none) := by
  constructor
  · intro pt s
    unfold deserializeCommit
    dsimp only
    by_cases h7 : (splitTabs s).length ≠ 7
    · rw [if_pos h7]
      simp only [Option.isSome_none, Bool.false_eq_true, false_iff, not_and]
      intro h
      exact absurd h h7
    · rw [if_neg h7]
      push_neg at h7
      cases hpt : pt ((splitTabs s).getD 1 []) with
      | none => simp [hpt, h7]
      | some t =>
        dsimp only
        cases h2 : goAtoi ((splitTabs s).getD 2 []) with
        | none => simp [hpt, h2, h7]
        | some a2 =>
          dsimp only
          cases h3 : goAtoi ((splitTabs s).getD 3 []) with
          | none => simp [hpt, h2, h3, h7]
          | some a3 =>
            dsimp only
            cases h5 : goParseUint32 ((splitTabs s).getD 5 []) with
            | none => simp [hpt, h2, h3, h5, h7]
            | some a5 => simp [hpt, h2, h3, h5, h7]
  · intro pt lines
    unfold loadCommitsOp
    rw [Option.map_eq_none']
    exact loadLines_none_iff pt lines

/-- The concrete timestamp parser used by the C6 witness (the abstract
RFC3339 collaborator instantiated to always succeed). -/
def pt0 : Str → Option Nat := fun _ => some 0

/-- A well-formed log line: 7 tab-separated fields with numeric version
(`"0001"`), basedOn (`"0000"`) and checksum (`"5"`) fields. -/
def goodLine : Str :=
  [97, 9, 116, 9, 48, 48, 48, 49, 9, 48, 48, 48, 48, 9, 115, 9, 53, 9, 109]

/-- A malformed log line: only 3 fields. -/
def badLine : Str := [97, 9, 116]

/-- Witness for C6 at concrete inputs: the well-formed line parses; a
file whose second line is malformed loads to nothing at all. -/
theorem claim_C6_line_parsing_witness :
    (deserializeCommit pt0 goodLine).isSome = true ∧
    loadCommitsOp pt0 [goodLine, badLine] = none :=
  ⟨(claim_C6_line_parsing.1 pt0 goodLine).mpr (by decide),
   (claim_C6_line_parsing.2 pt0 [goodLine, badLine]).mpr
     ⟨badLine, by decide, by decide⟩⟩

/-! ## The byte-level index file

`index.commit` does not append a record: it appends `cmt.serialize()` —
a tab-separated line — to the index file (`Fprintln`), and every later
invocation re-reads that file line by line (`bufio.Scanner` +
`deserializeCommit`), dying in `log.Fatalf` on any malformed line.  The
record-level `commitOp`/`runFrom` above abstract that cycle away and are
exact only for paths that keep every line well-formed; a path containing
a tab or newline byte commits successfully but poisons the index file for
every later invocation.  This section models the file faithfully:
`FileState.index` is the raw byte content of the index file. -/

/-- `commit.serialize`:
`fmt.Sprintf("%s\t%s\t%0*d\t%0*d\t%s\t%d\t%s", path, when.Format(RFC3339),
4, version, 4, basedOn, pathSig, dataCrc, changes)`, with the RFC3339
formatter abstracted as `fmtTime`. -/
def serializeCommit (fmtTime : Nat → Str) (c : Commit) : Str :=
  c.path ++ 9 :: (fmtTime c.when ++ 9 :: (goPadInt maxVersionLength c.version ++
    9 :: (goPadInt maxVersionLength c.basedOn ++ 9 :: (c.pathSig ++
    9 :: (decDigits c.dataCrc ++ 9 :: c.changes)))))

/-- `bufio.ScanLines`'s `dropCR`: strip one trailing carriage return. -/
def dropCR (l : Str) : Str :=
  if l.getLast? = some 13 then l.dropLast else l

/-- `bufio.Scanner` with `ScanLines` over the whole file: split at
newline bytes, no empty final token after a trailing newline, one
trailing CR stripped per line. -/
def scanLines (s : Str) : List Str :=
  if s = [] then []
  else
    let parts := s.splitOn 10
    (if parts.getLast? = some [] then parts.dropLast else parts).map dropCR

/-- Concatenation of lines as `Fprintln` leaves them in the index file:
each line followed by a newline byte. -/
def linesJoin : List Str → Str
  | [] => []
  | l :: ls => l ++ 10 :: linesJoin ls

/-- The durable state, at the byte level: the raw index file and the
content store. -/
structure FileState where
  index : Str
  store : Store
  deriving Repr, DecidableEq

/-- `index.commit` in a fresh invocation, at the byte level: `getIndex`
loads the index file first (one malformed line is `log.Fatalf` — the
whole invocation aborts, modelled as `none`, before anything runs); then
the commit proper validates, writes content, and appends the serialized
line plus a newline. -/
def commitFile (q : Str → Str) (fmtTime : Nat → Str) (parseTime : Str → Option Nat)
    (fst : FileState) (path : Str) (basedOn : Int) (changes : Str)
    (readResult : Option Bytes) (now : Nat) (oracle : IOOracle) :
    Option (CommitResult × FileState) :=
  match loadCommitsOp parseTime (scanLines fst.index) with
  | none => none
  | some commits =>
    match readResult with
    | none => some (.readError, fst)
    | some data =>
      let curr := currVersion commits path
      if basedOn ≠ 0 ∧ basedOn > curr then some (.invalidBase basedOn, fst)
      else
        let cmt : Commit :=
          { path := path, when := now, version := curr + 1, basedOn := basedOn,
            pathSig := pathSigOf path, dataCrc := crc32 data, changes := q changes }
        if oracle.contentWriteOk = false then some (.writeContentError, fst)
        else
          let fst₁ : FileState := ⟨fst.index, storeWrite fst.store (fileName cmt) data⟩
          if oracle.appendOk = false then some (.appendError, fst₁)
          else some (.ok, ⟨fst₁.index ++ serializeCommit fmtTime cmt ++ [10], fst₁.store⟩)

/-- `index.extract` in a fresh invocation, at the byte level: load the
index file (fatal on a malformed line, modelled as `none`), then look up
and verify as `extractOp` does. -/
def extractFile (parseTime : Str → Option Nat) (fst : FileState) (path : Str)
    (version : Int) : Option ExtractResult :=
  (loadCommitsOp parseTime (scanLines fst.index)).map (fun commits =>
    match commits.find? (fun c => c.path == path && c.version == version) with
    | none => ExtractResult.notFound
    | some cmt =>
      match storeRead fst.store (fileName cmt) with
      | none => ExtractResult.readError
      | some data =>
        if crc32 data ≠ cmt.dataCrc then ExtractResult.corrupted cmt.dataCrc (crc32 data)
        else ExtractResult.found data)

/-- One commit invocation on the durable file state: an invocation that
aborts during load leaves the durable state untouched (the fatal exit
happens before any write). -/
def stepFile (q : Str → Str) (fmtTime : Nat → Str) (parseTime : Str → Option Nat)
    (fst : FileState) (call : CommitCall) : FileState :=
  match commitFile q fmtTime parseTime fst call.path call.basedOn call.changes
      call.readResult call.now call.oracle with
  | none => fst
  | some r => r.2

/-- A sequence of commit invocations on the durable file state. -/
def runFileFrom (q : Str → Str) (fmtTime : Nat → Str) (parseTime : Str → Option Nat)
    (fst : FileState) (calls : List CommitCall) : FileState :=
  calls.foldl (stepFile q fmtTime parseTime) fst

/-! ### Splitting and scanning lemmas -/

theorem splitOn_sep_first {sep : Nat} {xs : Str} (h : ∀ x ∈ xs, x ≠ sep) (as : Str) :
    (xs ++ sep :: as).splitOn sep = xs :: as.splitOn sep := by
  unfold List.splitOn
  exact List.splitOnP_first _ _ (fun x hx => by simpa using h x hx) sep (by simp) as

theorem splitOn_no_sep {sep : Nat} {xs : Str} (h : ∀ x ∈ xs, x ≠ sep) :
    xs.splitOn sep = [xs] := by
  unfold List.splitOn
  exact List.splitOnP_eq_single _ _ (fun x hx => by simpa using h x hx)

theorem splitOn10_linesJoin (ls : List Str) (h : ∀ l ∈ ls, ∀ b ∈ l, b ≠ 10) :
    (linesJoin ls).splitOn 10 = ls ++ [[]] := by
  induction ls with
  | nil => exact List.splitOn_nil 10
  | cons l ls' ih =>
    unfold linesJoin
    rw [splitOn_sep_first (h l (List.mem_cons_self _ _)),
      ih (fun x hx => h x (List.mem_cons_of_mem _ hx))]
    rfl

theorem dropCR_id {l : Str} (h : l.getLast? ≠ some 13) : dropCR l = l := by
  unfold dropCR
  rw [if_neg h]

theorem scanLines_join (ls : List Str)
    (h10 : ∀ l ∈ ls, ∀ b ∈ l, b ≠ 10) (h13 : ∀ l ∈ ls, l.getLast? ≠ some 13) :
    scanLines (linesJoin ls) = ls := by
  cases ls with
  | nil => rfl
  | cons l ls' =>
    have hne : linesJoin (l :: ls') ≠ [] := by
      unfold linesJoin
      exact List.append_ne_nil_of_right_ne_nil _ (by simp)
    unfold scanLines
    rw [if_neg hne]
    dsimp only
    rw [splitOn10_linesJoin _ h10, List.getLast?_concat, if_pos rfl,
      List.dropLast_concat]
    have : ∀ x ∈ l :: ls', dropCR x = x := fun x hx => dropCR_id (h13 x hx)
    calc (l :: ls').map dropCR = (l :: ls').map id := List.map_congr_left this
      _ = l :: ls' := List.map_id _

theorem linesJoin_append_single (ls : List Str) (l : Str) :
    linesJoin (ls ++ [l]) = linesJoin ls ++ (l ++ [10]) := by
  induction ls with
  | nil => rfl
  | cons x xs ih =>
    unfold linesJoin
    rw [List.cons_append]
    show x ++ 10 :: linesJoin (xs ++ [l]) = (x ++ 10 :: linesJoin xs) ++ (l ++ [10])
    rw [ih, List.append_assoc]
    rfl

theorem loadLines_append_single (pt : Str → Option Nat) (ls : List Str) (l : Str)
    (log : List Commit) (c : Commit)
    (h : loadLines pt ls = some log) (hl : deserializeCommit pt l = some c) :
    loadLines pt (ls ++ [l]) = some (log ++ [c]) := by
  induction ls generalizing log with
  | nil =>
    obtain rfl : [] = log := by
      unfold loadLines at h
      injection h
    rw [List.nil_append]
    unfold loadLines
    rw [hl]
    rfl
  | cons x xs ih =>
    unfold loadLines at h
    cases hx : deserializeCommit pt x with
    | none => rw [hx] at h; cases h
    | some cx =>
      rw [hx] at h
      dsimp only at h
      cases hxs : loadLines pt xs with
      | none => rw [hxs] at h; cases h
      | some logx =>
        rw [hxs] at h
        dsimp only at h
        obtain rfl : cx :: logx = log := by injection h
        rw [List.cons_append]
        unfold loadLines
        rw [hx]
        dsimp only
        rw [ih logx hxs]
        rfl

/-! ### Field-level round-trip lemmas -/

theorem decDigitsAux_ne_nil (fuel n : Nat) : decDigitsAux fuel n ≠ [] := by
  cases fuel with
  | zero => simp [decDigitsAux]
  | succ f =>
    unfold decDigitsAux
    split
    · simp
    · exact List.append_ne_nil_of_right_ne_nil _ (by simp)

theorem leftPad0_ne_nil {w : Nat} {s : Str} (h : s ≠ []) : leftPad0 w s ≠ [] := by
  unfold leftPad0
  exact List.append_ne_nil_of_right_ne_nil _ h

theorem goPadInt_bytes {w : Nat} {n : Int} :
    ∀ b ∈ goPadInt w n, b = 45 ∨ (48 ≤ b ∧ b ≤ 57) := by
  intro b hb
  unfold goPadInt at hb
  split at hb
  · rcases List.mem_cons.mp hb with rfl | hb'
    · exact Or.inl rfl
    · exact Or.inr (leftPad0_are_digits (decDigits_are_digits _) b hb')
  · exact Or.inr (leftPad0_are_digits (decDigits_are_digits _) b hb)

theorem pathSigOf_ge_48 {p : Str} : ∀ b ∈ pathSigOf p, 48 ≤ b := by
  intro b hb
  unfold pathSigOf hexBytes at hb
  rw [List.mem_flatMap] at hb
  obtain ⟨x, _, hx⟩ := hb
  rw [List.mem_cons, List.mem_singleton] at hx
  have : ∀ m, 48 ≤ hexDigitByte m := by
    intro m
    unfold hexDigitByte
    split <;> omega
  rcases hx with rfl | rfl <;> exact this _

theorem decDigits_ne_nil (n : Nat) : decDigits n ≠ [] :=
  decDigitsAux_ne_nil n n

theorem goAtoi_digits {t : Str} (hne : t ≠ []) (hd : ∀ b ∈ t, 48 ≤ b ∧ b ≤ 57)
    (hv : digitsVal t ≤ 2 ^ 63 - 1) : goAtoi t = some ((digitsVal t : Int)) := by
  unfold goAtoi
  dsimp only
  revert hne hd hv
  split
  · intro hne hd hv
    have := hd 43 (List.mem_cons_self _ _)
    omega
  · intro hne hd hv
    have := hd 45 (List.mem_cons_self _ _)
    omega
  · intro hne hd hv
    have hc : (decide (t ≠ []) && t.all isDigit &&
        decide (digitsVal t ≤ 2 ^ 63 - 1)) = true := by
      simp only [Bool.and_eq_true, decide_eq_true_eq, List.all_eq_true]
      refine ⟨⟨hne, ?_⟩, hv⟩
      intro b hb
      have := hd b hb
      unfold isDigit
      simp only [Bool.and_eq_true, decide_eq_true_eq]
      omega
    rw [if_pos hc]

theorem goAtoi_neg_digits {t : Str} (hne : t ≠ []) (hd : ∀ b ∈ t, 48 ≤ b ∧ b ≤ 57)
    (hv : digitsVal t ≤ 2 ^ 63) : goAtoi (45 :: t) = some (-(digitsVal t : Int)) := by
  unfold goAtoi
  dsimp only
  have hc : (decide (t ≠ []) && t.all isDigit &&
      decide (digitsVal t ≤ 2 ^ 63)) = true := by
    simp only [Bool.and_eq_true, decide_eq_true_eq, List.all_eq_true]
    refine ⟨⟨hne, ?_⟩, hv⟩
    intro b hb
    have := hd b hb
    unfold isDigit
    simp only [Bool.and_eq_true, decide_eq_true_eq]
    omega
  rw [if_pos hc]

theorem goAtoi_goPadInt {w : Nat} {n : Int}
    (h₁ : -(2 ^ 63) ≤ n) (h₂ : n < 2 ^ 63) :
    goAtoi (goPadInt w n) = some n := by
  unfold goPadInt
  by_cases hneg : n < 0
  · rw [if_pos hneg]
    rw [goAtoi_neg_digits (leftPad0_ne_nil (decDigits_ne_nil _))
      (leftPad0_are_digits (decDigits_are_digits _))
      (by rw [digitsVal_leftPad0, decDigits_val]; omega)]
    rw [digitsVal_leftPad0, decDigits_val]
    congr 1
    rw [Int.ofNat_natAbs_of_nonpos (le_of_lt hneg)]
    exact neg_neg n
  · rw [if_neg hneg]
    rw [goAtoi_digits (leftPad0_ne_nil (decDigits_ne_nil _))
      (leftPad0_are_digits (decDigits_are_digits _))
      (by rw [digitsVal_leftPad0, decDigits_val]; omega)]
    rw [digitsVal_leftPad0, decDigits_val]
    congr 1
    exact Int.natAbs_of_nonneg (by omega)

theorem goParseUint32_decDigits {n : Nat} (h : n < 2 ^ 32) :
    goParseUint32 (decDigits n) = some n := by
  unfold goParseUint32
  rw [if_pos, decDigits_val]
  simp only [Bool.and_eq_true, decide_eq_true_eq, List.all_eq_true]
  refine ⟨⟨by simpa using decDigits_ne_nil n, ?_⟩, by rw [decDigits_val]; exact h⟩
  intro b hb
  have := decDigits_are_digits n b hb
  unfold isDigit
  simp only [Bool.and_eq_true, decide_eq_true_eq]
  omega

theorem crc32Bit_lt {c : Nat} (h : c < 2 ^ 32) : crc32Bit c < 2 ^ 32 := by
  unfold crc32Bit
  split
  · exact Nat.xor_lt_two_pow (by omega) (by norm_num)
  · omega

theorem crc32Byte_lt {c b : Nat} (hc : c < 2 ^ 32) (hb : b < 256) :
    crc32Byte c b < 2 ^ 32 := by
  unfold crc32Byte
  have h0 : c ^^^ b < 2 ^ 32 := Nat.xor_lt_two_pow hc (by omega)
  exact crc32Bit_lt (crc32Bit_lt (crc32Bit_lt (crc32Bit_lt (crc32Bit_lt
    (crc32Bit_lt (crc32Bit_lt (crc32Bit_lt h0)))))))

theorem crc32_foldl_lt : ∀ (l : Bytes), (∀ b ∈ l, b < 256) →
    ∀ (acc : Nat), acc < 2 ^ 32 → l.foldl crc32Byte acc < 2 ^ 32 := by
  intro l
  induction l with
  | nil =>
    intro _ acc hacc
    simpa using hacc
  | cons x xs ih =>
    intro hl acc hacc
    rw [List.foldl_cons]
    exact ih (fun b hb => hl b (List.mem_cons_of_mem _ hb)) _
      (crc32Byte_lt hacc (hl x (List.mem_cons_self _ _)))

/-- The CRC-32 of genuine byte data fits in 32 bits (so the `%d` field
re-parses with `ParseUint(_, 10, 32)`). -/
theorem crc32_lt {data : Bytes} (h : ∀ b ∈ data, b < 256) :
    crc32 data < 2 ^ 32 := by
  unfold crc32
  exact Nat.xor_lt_two_pow (crc32_foldl_lt data h _ (by norm_num)) (by norm_num)

/-! ### Whole-line lemmas -/

/-- Splitting a serialized commit line at tabs recovers the seven fields,
provided no free-text field contains a tab byte. -/
theorem splitTabs_serializeCommit (fmtTime : Nat → Str) (c : Commit)
    (hp : ∀ b ∈ c.path, b ≠ 9) (ht : ∀ b ∈ fmtTime c.when, b ≠ 9)
    (hs : ∀ b ∈ c.pathSig, b ≠ 9) (hch : ∀ b ∈ c.changes, b ≠ 9) :
    splitTabs (serializeCommit fmtTime c) =
      [c.path, fmtTime c.when, goPadInt maxVersionLength c.version,
       goPadInt maxVersionLength c.basedOn, c.pathSig,
       decDigits c.dataCrc, c.changes] := by
  have hpad : ∀ (n : Int), ∀ b ∈ goPadInt maxVersionLength n, b ≠ 9 := by
    intro n b hb
    rcases goPadInt_bytes b hb with rfl | hbd <;> omega
  have hdec : ∀ b ∈ decDigits c.dataCrc, b ≠ 9 := by
    intro b hb
    have := decDigits_are_digits _ b hb
    omega
  unfold splitTabs serializeCommit
  rw [splitOn_sep_first hp, splitOn_sep_first ht, splitOn_sep_first (hpad _),
    splitOn_sep_first (hpad _), splitOn_sep_first hs, splitOn_sep_first hdec,
    splitOn_no_sep hch]

/-- No byte of a serialized commit line is a newline, provided the
free-text fields avoid it (the separators are tabs and the numeric and
hex fields are digits, `'-'` or lower-case hex letters). -/
theorem serializeCommit_no10 {fmtTime : Nat → Str} {c : Commit}
    (hp : ∀ b ∈ c.path, b ≠ 10) (ht : ∀ b ∈ fmtTime c.when, b ≠ 10)
    (hs : ∀ b ∈ c.pathSig, 48 ≤ b) (hch : ∀ b ∈ c.changes, b ≠ 10) :
    ∀ b ∈ serializeCommit fmtTime c, b ≠ 10 := by
  intro b hb
  unfold serializeCommit at hb
  simp only [List.mem_append, List.mem_cons] at hb
  rcases hb with h | rfl | h | rfl | h | rfl | h | rfl | h | rfl | h | rfl | h
  · exact hp b h
  · omega
  · exact ht b h
  · omega
  · rcases goPadInt_bytes b h with rfl | hd <;> omega
  · omega
  · rcases goPadInt_bytes b h with rfl | hd <;> omega
  · omega
  · have := hs b h
    omega
  · omega
  · have := decDigits_are_digits _ b h
    omega
  · omega
  · exact hch b h

theorem getLast?_cons_append_cons (x : Nat) (a : Str) (y : Nat) (r : Str) :
    (x :: (a ++ y :: r)).getLast? = (y :: r).getLast? := by
  rw [← List.cons_append, List.getLast?_append_cons]

/-- The last byte of a serialized line is the last byte of the quoted
change description (or the final tab when it is empty) — never a carriage
return when the description avoids it. -/
theorem serializeCommit_getLast_ne13 {fmtTime : Nat → Str} {c : Commit}
    (hch : ∀ b ∈ c.changes, b ≠ 13) :
    (serializeCommit fmtTime c).getLast? ≠ some 13 := by
  have hlast : (serializeCommit fmtTime c).getLast? = (9 :: c.changes).getLast? := by
    unfold serializeCommit
    rw [List.getLast?_append_cons, getLast?_cons_append_cons,
      getLast?_cons_append_cons, getLast?_cons_append_cons,
      getLast?_cons_append_cons, getLast?_cons_append_cons]
  rw [hlast]
  cases hc : c.changes with
  | nil => simp
  | cons x xs =>
    rw [List.getLast?_cons_cons]
    intro h
    have hmem := List.mem_of_getLast?_eq_some h
    exact hch 13 (by rw [hc]; exact hmem) rfl

/-- Deserializing a serialized commit line recovers the record, except
that the timestamp passes through the external format/parse pair (extract
and version arithmetic never inspect it).  Requires tab-free text fields,
int64-range version and basedOn, and a 32-bit checksum — all guaranteed
by the program for any record it writes. -/
theorem deserialize_serialize (fmtTime : Nat → Str) (parseTime : Str → Option Nat)
    (c : Commit) (t' : Nat) (hpt : parseTime (fmtTime c.when) = some t')
    (hp : ∀ b ∈ c.path, b ≠ 9) (ht : ∀ b ∈ fmtTime c.when, b ≠ 9)
    (hs : ∀ b ∈ c.pathSig, b ≠ 9) (hch : ∀ b ∈ c.changes, b ≠ 9)
    (hv₁ : -(2 ^ 63) ≤ c.version) (hv₂ : c.version < 2 ^ 63)
    (hb₁ : -(2 ^ 63) ≤ c.basedOn) (hb₂ : c.basedOn < 2 ^ 63)
    (hcrc : c.dataCrc < 2 ^ 32) :
    deserializeCommit parseTime (serializeCommit fmtTime c) =
      some { c with when := t' } := by
  unfold deserializeCommit
  rw [splitTabs_serializeCommit fmtTime c hp ht hs hch]
  dsimp only
  rw [if_neg (fun h => h rfl)]
  simp only [List.getD_cons_zero, List.getD_cons_succ]
  rw [hpt]
  dsimp only
  rw [goAtoi_goPadInt hv₁ hv₂]
  dsimp only
  rw [goAtoi_goPadInt hb₁ hb₂]
  dsimp only
  rw [goParseUint32_decDigits hcrc]

/-! ### Simulation: the byte-level file refines the record-level model -/

/-- Data read from a real file is made of bytes. -/
def CleanBytes : Option Bytes → Prop
  | none => True
  | some data => ∀ b ∈ data, b < 256

instance : (o : Option Bytes) → Decidable (CleanBytes o)
  | none => isTrue trivial
  | some data => inferInstanceAs (Decidable (∀ b ∈ data, b < 256))

/-- A commit invocation as the real program can make it: the path has no
tab or newline byte, the base came from a 64-bit flag, the working file
read produced bytes. -/
def CleanCall (c : CommitCall) : Prop :=
  (∀ b ∈ c.path, b ≠ 9 ∧ b ≠ 10) ∧
  (-(2 ^ 63) ≤ c.basedOn ∧ c.basedOn < 2 ^ 63) ∧
  CleanBytes c.readResult

instance (c : CommitCall) : Decidable (CleanCall c) :=
  inferInstanceAs (Decidable (_ ∧ _ ∧ _))

/-- The timestamp an invocation's record carries after one
format/parse round trip through the external time library. -/
def ptNow (fmtTime : Nat → Str) (parseTime : Str → Option Nat) (now : Nat) : Nat :=
  (parseTime (fmtTime now)).getD 0

/-- A record-level trace whose clocks are what each file-level record
reads back after the RFC3339 format/parse round trip. -/
def mapCalls (fmtTime : Nat → Str) (parseTime : Str → Option Nat)
    (calls : List CommitCall) : List CommitCall :=
  calls.map (fun c => { c with now := ptNow fmtTime parseTime c.now })

/-- The byte-level file state refines a record-level state: same store,
invariant log, and the index file is a newline-joined list of clean lines
that parses to exactly that log. -/
def FileRel (parseTime : Str → Option Nat) (fst : FileState) (st : IndexState) : Prop :=
  fst.store = st.store ∧ Inv st ∧
  ∃ ls : List Str, fst.index = linesJoin ls ∧
    (∀ l ∈ ls, ∀ b ∈ l, b ≠ 10) ∧ (∀ l ∈ ls, l.getLast? ≠ some 13) ∧
    loadLines parseTime ls = some st.log

theorem FileRel_init (parseTime : Str → Option Nat) :
    FileRel parseTime ⟨[], []⟩ initState :=
  ⟨rfl, inv_init, [], rfl, fun _ h => absurd h (List.not_mem_nil _),
   fun _ h => absurd h (List.not_mem_nil _), rfl⟩

theorem FileRel_load {parseTime : Str → Option Nat} {fst : FileState} {st : IndexState}
    (h : FileRel parseTime fst st) :
    loadCommitsOp parseTime (scanLines fst.index) = some (sortCommits st.log) := by
  obtain ⟨_, _, ls, hidx, h10, h13, hparse⟩ := h
  rw [hidx, scanLines_join ls h10 h13]
  unfold loadCommitsOp
  rw [hparse]
  rfl

/-- Under the invariant the current version of any path is at most the
number of records in the log. -/
theorem currVersion_le_length {st : IndexState} (hInv : Inv st) (p : Str) :
    currVersion (sortCommits st.log) p ≤ (st.log.length : Int) := by
  rw [currVersion_sortCommits, currVersion_of_versions (hInv.versions p)]
  have h₁ : (versionsOf st.log p).length ≤ st.log.length := by
    unfold versionsOf
    rw [List.length_map]
    exact List.length_filter_le _ _
  exact_mod_cast h₁

/-- Each commit grows the record log by at most one record. -/
theorem commitOp_log_length (q : Str → Str) (st : IndexState) (path : Str)
    (basedOn : Int) (changes : Str) (rr : Option Bytes) (now : Nat)
    (oracle : IOOracle) :
    (commitOp q st path basedOn changes rr now oracle).state.log.length ≤
      st.log.length + 1 := by
  by_cases hok : (commitOp q st path basedOn changes rr now oracle).result = .ok
  · obtain ⟨data, _, _, _, _, heq⟩ := commitOp_ok_inv _ _ _ _ _ _ _ _ hok
    rw [heq]
    simp
  · rw [commitOp_log_of_not_ok _ _ _ _ _ _ _ _ hok]
    omega

/-- One commit invocation: the byte-level run agrees with the
record-level model (with the parsed-back clock) and preserves the
refinement. -/
theorem commitFile_sim {q : Str → Str} {fmtTime : Nat → Str} {parseTime : Str → Option Nat}
    (hq : ∀ m, ∀ b ∈ q m, b ≠ 9 ∧ b ≠ 10 ∧ b ≠ 13)
    (hfmt : ∀ t, (parseTime (fmtTime t)).isSome = true ∧
      ∀ b ∈ fmtTime t, b ≠ 9 ∧ b ≠ 10 ∧ b ≠ 13)
    {fst : FileState} {st : IndexState} (hrel : FileRel parseTime fst st)
    {path : Str} (hpath : ∀ b ∈ path, b ≠ 9 ∧ b ≠ 10)
    {basedOn : Int} (hbase : -(2 ^ 63) ≤ basedOn ∧ basedOn < 2 ^ 63)
    (changes : Str) {rr : Option Bytes} (hrr : CleanBytes rr)
    (now : Nat) (oracle : IOOracle)
    (hver : currVersion (sortCommits st.log) path + 1 < 2 ^ 63) :
    ∃ fst' : FileState,
      commitFile q fmtTime parseTime fst path basedOn changes rr now oracle =
        some ((commitOp q st path basedOn changes rr (ptNow fmtTime parseTime now)
          oracle).result, fst') ∧
      FileRel parseTime fst'
        (commitOp q st path basedOn changes rr (ptNow fmtTime parseTime now)
          oracle).state := by
  have hload := FileRel_load hrel
  obtain ⟨hstore, hinv, ls, hidx, h10, h13, hparse⟩ := hrel
  unfold commitFile
  rw [hload]
  dsimp only
  cases rr with
  | none =>
    dsimp only
    rw [commitOp_readErr]
    exact ⟨fst, rfl, hstore, hinv, ls, hidx, h10, h13, hparse⟩
  | some data =>
    dsimp only
    by_cases hvalid : basedOn ≠ 0 ∧ basedOn > currVersion (sortCommits st.log) path
    · rw [if_pos hvalid, commitOp_invalid _ _ _ _ _ _ _ _ hvalid]
      exact ⟨fst, rfl, hstore, hinv, ls, hidx, h10, h13, hparse⟩
    · rw [if_neg hvalid]
      cases hw : oracle.contentWriteOk with
      | false =>
        rw [if_pos rfl, commitOp_writeFail _ _ _ _ _ _ _ _ hvalid hw]
        exact ⟨fst, rfl, hstore, hinv, ls, hidx, h10, h13, hparse⟩
      | true =>
        rw [if_neg (fun h => Bool.noConfusion h)]
        have hinv' := inv_step hinv q path basedOn changes (some data)
          (ptNow fmtTime parseTime now) oracle
        cases ha : oracle.appendOk with
        | false =>
          rw [if_pos rfl]
          have heq := commitOp_appendFail q st path basedOn changes data
            (ptNow fmtTime parseTime now) oracle hvalid hw ha
          rw [heq] at hinv' ⊢
          refine ⟨_, rfl, ?_, hinv', ls, hidx, h10, h13, hparse⟩
          show storeWrite fst.store _ data = storeWrite st.store _ data
          rw [hstore]
          unfold fileName newCmt
          dsimp only
        | true =>
        rw [if_neg (fun h => Bool.noConfusion h)]
        have heq := commitOp_ok q st path basedOn changes data
          (ptNow fmtTime parseTime now) oracle hvalid hw ha
        rw [heq] at hinv' ⊢
        obtain ⟨t', hpt⟩ := Option.isSome_iff_exists.mp (hfmt now).1
        have hptNow : ptNow fmtTime parseTime now = t' := by
          unfold ptNow
          rw [hpt]
          rfl
        have hsig48 : ∀ b ∈ pathSigOf path, 48 ≤ b := pathSigOf_ge_48
        have hcurr0 := currVersion_nonneg (sortCommits st.log) path
        have hdes := deserialize_serialize fmtTime parseTime
          { path := path, when := now,
            version := currVersion (sortCommits st.log) path + 1,
            basedOn := basedOn, pathSig := pathSigOf path,
            dataCrc := crc32 data, changes := q changes } t' hpt
          (fun b hb => (hpath b hb).1) (fun b hb => ((hfmt now).2 b hb).1)
          (fun b hb => by have := hsig48 b hb; omega)
          (fun b hb => (hq changes b hb).1)
          (by dsimp only; omega) (by dsimp only; omega)
          hbase.1 hbase.2 (crc32_lt hrr)
        refine ⟨_, rfl, ?_, hinv',
          ls ++ [serializeCommit fmtTime
            { path := path, when := now,
              version := currVersion (sortCommits st.log) path + 1,
              basedOn := basedOn, pathSig := pathSigOf path,
              dataCrc := crc32 data, changes := q changes }], ?_, ?_, ?_, ?_⟩
        · show storeWrite fst.store _ data = storeWrite st.store _ data
          rw [hstore]
          unfold fileName newCmt
          dsimp only
        · show fst.index ++ _ ++ [10] = _
          rw [hidx, linesJoin_append_single, List.append_assoc]
        · intro l hl
          rcases List.mem_append.mp hl with hl' | hl'
          · exact h10 l hl'
          · rw [List.mem_singleton] at hl'
            subst hl'
            exact serializeCommit_no10 (fun b hb => (hpath b hb).2)
              (fun b hb => ((hfmt now).2 b hb).2.1) hsig48
              (fun b hb => (hq changes b hb).2.1)
        · intro l hl
          rcases List.mem_append.mp hl with hl' | hl'
          · exact h13 l hl'
          · rw [List.mem_singleton] at hl'
            subst hl'
            exact serializeCommit_getLast_ne13 (fun b hb => (hq changes b hb).2.2)
        · rw [loadLines_append_single parseTime ls _ st.log _ hparse hdes]
          unfold newCmt
          rw [hptNow]

/-- A run grows the record log by at most one record per call. -/
theorem runFrom_log_length (q : Str → Str) (st : IndexState) (calls : List CommitCall) :
    (runFrom q st calls).log.length ≤ st.log.length + calls.length := by
  induction calls generalizing st with
  | nil => simp [runFrom]
  | cons c cs ih =>
    unfold runFrom at ih ⊢
    rw [List.foldl_cons]
    have h₁ := commitOp_log_length q st c.path c.basedOn c.changes c.readResult
      c.now c.oracle
    have h₂ := ih ((commitOp q st c.path c.basedOn c.changes c.readResult
      c.now c.oracle).state)
    simp only [List.length_cons]
    omega

/-- A clean sequence of commit invocations keeps the byte-level file in
refinement with the record-level run on the parsed-back clocks. -/
theorem runFile_sim {q : Str → Str} {fmtTime : Nat → Str} {parseTime : Str → Option Nat}
    (hq : ∀ m, ∀ b ∈ q m, b ≠ 9 ∧ b ≠ 10 ∧ b ≠ 13)
    (hfmt : ∀ t, (parseTime (fmtTime t)).isSome = true ∧
      ∀ b ∈ fmtTime t, b ≠ 9 ∧ b ≠ 10 ∧ b ≠ 13) :
    ∀ (calls : List CommitCall), (∀ c ∈ calls, CleanCall c) →
    ∀ {fst : FileState} {st : IndexState}, FileRel parseTime fst st →
    ((st.log.length : Int) + calls.length < 2 ^ 63) →
    FileRel parseTime (runFileFrom q fmtTime parseTime fst calls)
      (runFrom q st (mapCalls fmtTime parseTime calls)) := by
  intro calls
  induction calls with
  | nil =>
    intro _ fst st hrel _
    exact hrel
  | cons c cs ih =>
    intro hcalls fst st hrel hbound
    obtain ⟨hcpath, hcbase, hcbytes⟩ := hcalls c (List.mem_cons_self _ _)
    have hver : currVersion (sortCommits st.log) c.path + 1 < 2 ^ 63 := by
      have h₁ := currVersion_le_length hrel.2.1 c.path
      simp only [List.length_cons] at hbound
      push_cast at hbound
      omega
    obtain ⟨fst', hstep, hrel'⟩ := commitFile_sim hq hfmt hrel hcpath hcbase
      c.changes hcbytes c.now c.oracle hver
    have hstepFile : stepFile q fmtTime parseTime fst c = fst' := by
      unfold stepFile
      rw [hstep]
    show FileRel parseTime
      (runFileFrom q fmtTime parseTime (stepFile q fmtTime parseTime fst c) cs)
      (runFrom q ((commitOp q st c.path c.basedOn c.changes c.readResult
        (ptNow fmtTime parseTime c.now) c.oracle).state)
        (mapCalls fmtTime parseTime cs))
    rw [hstepFile]
    refine ih (fun x hx => hcalls x (List.mem_cons_of_mem _ hx)) hrel' ?_
    have hlen := commitOp_log_length q st c.path c.basedOn c.changes c.readResult
      (ptNow fmtTime parseTime c.now) c.oracle
    simp only [List.length_cons] at hbound
    push_cast at hbound ⊢
    omega

/-- A refined file state extracts exactly what the record-level model
extracts (in particular the load succeeds). -/
theorem extractFile_rel {parseTime : Str → Option Nat} {fst : FileState}
    {st : IndexState} (hrel : FileRel parseTime fst st) (p : Str) (v : Int) :
    extractFile parseTime fst p v = some (extractOp st p v) := by
  unfold extractFile
  rw [FileRel_load hrel, hrel.1]
  rfl

/-! ## Claim C1 (corrected): round-trip integrity -/

/-- The tab-containing path `"x\ty"` — legal as a file path, fatal to the
tab-separated index line format. -/
def cexPath : Str := [120, 9, 121]

/-- A concrete stand-in for the RFC3339 formatter: the constant
string `"t"`. -/
def cexFmt : Nat → Str := fun _ => [116]

/-- A concrete stand-in for the RFC3339 parser, accepting exactly what
`cexFmt` emits. -/
def cexParse : Str → Option Nat := fun s => if s = [116] then some 0 else none

/-- A quoting stand-in that emits nothing (sufficient for the empty
change messages used in the concrete runs). -/
def qconst : Str → Str := fun _ => []

end Sgvc
